import Mathlib

/-!
Shallow embedding of the hs1siv package (HS1-SIV authenticated cipher) and
proofs about it.

Bytes are modelled as `Nat` (Go `byte` values are < 256; theorems that need
that range carry it as a hypothesis), byte buffers as `List Nat`, and the
machine words `uint32`/`uint64` as `Nat` with explicit reduction `% 2^32` /
`% 2^64` wherever the Go code can overflow.  Go `panic`s reachable from the
public API are modelled with `GoResult`; the bounds-checked variants of the
hash primitives (`...C` definitions) return `Option` and are proven to agree
with the plain definitions under the call-site preconditions.
-/

namespace HS1SIV

/-- Outcome of a Go computation that can panic. -/
inductive GoResult (α : Type) where
  | panicked : GoResult α
  | ok : α → GoResult α
deriving DecidableEq, Repr

/-! ## Basic word and buffer operations -/

/-- Truncation to a `uint32` value. -/
def u32 (x : Nat) : Nat := x % 2 ^ 32

/-- Truncation to a `uint64` value. -/
def u64 (x : Nat) : Nat := x % 2 ^ 64

/-- `bits.RotateLeft32`: rotate a `uint32` left by `n` (0 < n < 32 at all call
sites). -/
def rotl32 (x n : Nat) : Nat := ((x <<< n) % 2 ^ 32) ||| (x >>> (32 - n))

/-- `binary.LittleEndian.Uint32(l[off:])`: little-endian 32-bit read.  Reads use
`getD` with default 0; the bounds-checked wrappers account for panics. -/
def leU32At (l : List Nat) (off : Nat) : Nat :=
  l.getD off 0 + l.getD (off + 1) 0 * 2 ^ 8 + l.getD (off + 2) 0 * 2 ^ 16 +
    l.getD (off + 3) 0 * 2 ^ 24

/-- `binary.LittleEndian.Uint64(l[off:])`: little-endian 64-bit read. -/
def leU64At (l : List Nat) (off : Nat) : Nat :=
  leU32At l off + leU32At l (off + 4) * 2 ^ 32

/-- `binary.LittleEndian.PutUint32`: little-endian bytes of a 32-bit word. -/
def leBytes32 (w : Nat) : List Nat :=
  [w % 2 ^ 8, w / 2 ^ 8 % 2 ^ 8, w / 2 ^ 16 % 2 ^ 8, w / 2 ^ 24 % 2 ^ 8]

/-- `binary.LittleEndian.PutUint64`: little-endian bytes of a 64-bit word. -/
def leBytes64 (w : Nat) : List Nat :=
  leBytes32 (w % 2 ^ 32) ++ leBytes32 (w / 2 ^ 32)

/-- Go's `copy(dst[off:], src)`: overwrite `min (dst.length - off) src.length`
bytes of `dst` starting at `off`, leaving everything else unchanged.  (All call
sites have `off ≤ dst.length`, matching the Go slice bound.) -/
def goCopyAt (dst : List Nat) (off : Nat) (src : List Nat) : List Nat :=
  dst.take off ++ src.take (dst.length - off) ++ dst.drop (off + src.length)

/-! ## ChaCha20 (chacha20.go) -/

def sigma0 : Nat := 0x61707865
def sigma1 : Nat := 0x3320646e
def sigma2 : Nat := 0x79622d32
def sigma3 : Nat := 0x6b206574

def chachaKeySize : Nat := 32
def chachaNonceSize : Nat := 12
def chachaBlockSize : Nat := 64

/-- The 16-word ChaCha state (`chachaState`, a `[16]uint32`). -/
structure ChachaState where
  s0 : Nat
  s1 : Nat
  s2 : Nat
  s3 : Nat
  s4 : Nat
  s5 : Nat
  s6 : Nat
  s7 : Nat
  s8 : Nat
  s9 : Nat
  s10 : Nat
  s11 : Nat
  s12 : Nat
  s13 : Nat
  s14 : Nat
  s15 : Nat
deriving DecidableEq, Repr

/-- One ChaCha quarter round (the add-rotate-xor sequence the Go round loop
inlines for each column/diagonal, rotation distances 16/12/8/7). -/
def qround : Nat × Nat × Nat × Nat → Nat × Nat × Nat × Nat :=
  fun (a, b, c, d) =>
    let a := (a + b) % 2 ^ 32
    let d := rotl32 (d ^^^ a) 16
    let c := (c + d) % 2 ^ 32
    let b := rotl32 (b ^^^ c) 12
    let a := (a + b) % 2 ^ 32
    let d := rotl32 (d ^^^ a) 8
    let c := (c + d) % 2 ^ 32
    let b := rotl32 (b ^^^ c) 7
    (a, b, c, d)

/-- One double round: quarter rounds on the four columns, then on the four
diagonals, exactly as in the body of the `for i := chachaRounds; i > 0; i -= 2`
loop of `chachaBlocksRef`. -/
def chachaDoubleRound (x : ChachaState) : ChachaState :=
  let (x0, x4, x8, x12) := qround (x.s0, x.s4, x.s8, x.s12)
  let (x1, x5, x9, x13) := qround (x.s1, x.s5, x.s9, x.s13)
  let (x2, x6, x10, x14) := qround (x.s2, x.s6, x.s10, x.s14)
  let (x3, x7, x11, x15) := qround (x.s3, x.s7, x.s11, x.s15)
  let (x0', x5', x10', x15') := qround (x0, x5, x10, x15)
  let (x1', x6', x11', x12') := qround (x1, x6, x11, x12)
  let (x2', x7', x8', x13') := qround (x2, x7, x8, x13)
  let (x3', x4', x9', x14') := qround (x3, x4, x9, x14)
  ⟨x0', x1', x2', x3', x4', x5', x6', x7', x8', x9', x10', x11', x12', x13', x14', x15'⟩

/-- The 20 ChaCha rounds = 10 double rounds applied to the state. -/
def chachaRound20 (s : ChachaState) : ChachaState :=
  Nat.iterate chachaDoubleRound 10 s

/-- The 16 words `x_i + s_i` (as `uint32`) serialized by one block of
`chachaBlocksRef`; `x` is the permuted working state, `s` the input state. -/
def chachaKsWords (x s : ChachaState) : List Nat :=
  [u32 (x.s0 + s.s0), u32 (x.s1 + s.s1), u32 (x.s2 + s.s2), u32 (x.s3 + s.s3),
   u32 (x.s4 + s.s4), u32 (x.s5 + s.s5), u32 (x.s6 + s.s6), u32 (x.s7 + s.s7),
   u32 (x.s8 + s.s8), u32 (x.s9 + s.s9), u32 (x.s10 + s.s10), u32 (x.s11 + s.s11),
   u32 (x.s12 + s.s12), u32 (x.s13 + s.s13), u32 (x.s14 + s.s14), u32 (x.s15 + s.s15)]

/-- The sixteen 32-bit little-endian words of a 64-byte block, read at offsets
`0, 4, ..., 60` (the `binary.LittleEndian.Uint32(in[4*i:])` reads of one block
iteration). -/
def blockWords (blk : List Nat) : List Nat :=
  (List.range 16).map fun i => leU32At blk (4 * i)

/-- One block of `chachaBlocksRef`: each output word is the input word XORed
with `x_i + s_i`, serialized little-endian. -/
def chachaBlockOut (s : ChachaState) (inBlk : List Nat) : List Nat :=
  ((blockWords inBlk).zipWith Nat.xor (chachaKsWords (chachaRound20 s) s)).flatMap leBytes32

/-- The 64 keystream bytes of one block (what the block writes when the input
is all-zero). -/
def chachaKsBlock (s : ChachaState) : List Nat :=
  (chachaKsWords (chachaRound20 s) s).flatMap leBytes32

/-- Increment of the counter word `s12` (a `uint32`) after each block. -/
def bumpCounter (s : ChachaState) : ChachaState :=
  { s with s12 := u32 (s.s12 + 1) }

/-- `chachaBlocksRef`: process `nrBlocks` 64-byte blocks, XOR-writing them over
`out`, consuming `input` 64 bytes at a time and incrementing `s12` per block.
Returns the new `out` contents and the state with the final counter
(`s[12] = s12` write-back). -/
def chachaBlocksRef (s : ChachaState) (input out : List Nat) : Nat → List Nat × ChachaState
  | 0 => (out, s)
  | n + 1 =>
    let blockOut := chachaBlockOut s (input.take 64)
    let rest := chachaBlocksRef (bumpCounter s) (input.drop 64) (out.drop 64) n
    (blockOut ++ rest.1, rest.2)

/-- Bounds-checked `chachaBlocksRef`: each block does `_ = in[63]` and
`_ = out[63]` style accesses, so it panics (`none`) unless both slices hold a
full block. -/
def chachaBlocksRefC (s : ChachaState) (input out : List Nat) : Nat → Option (List Nat × ChachaState)
  | 0 => some (out, s)
  | n + 1 =>
    if 64 ≤ input.length ∧ 64 ≤ out.length then
      (chachaBlocksRefC (bumpCounter s) (input.drop 64) (out.drop 64) n).map
        fun rest => (chachaBlockOut s (input.take 64) ++ rest.1, rest.2)
    else none

/-- `chachaXORKeyStreamRef`: process the full blocks of `input`, then handle a
partial final block by generating into a full-size zeroed scratch block and
copying the prefix that fits into `out`. -/
def chachaXORKeyStreamRef (s : ChachaState) (input out : List Nat) : List Nat × ChachaState :=
  let fullBlocks := input.length / chachaBlockSize
  let r1 := if 0 < fullBlocks then chachaBlocksRef s input out fullBlocks else (out, s)
  let off := fullBlocks * chachaBlockSize
  let inLen := input.length - off
  if 0 < inLen then
    let scratch := goCopyAt (List.replicate chachaBlockSize 0) 0 (input.drop off)
    let r2 := chachaBlocksRef r1.2 scratch scratch 1
    (goCopyAt r1.1 off r2.1, r2.2)
  else r1

/-- Bounds-checked `chachaXORKeyStreamRef` (C8): same computation but through
the checked block routine. -/
def chachaXORKeyStreamRefC (s : ChachaState) (input out : List Nat) :
    Option (List Nat × ChachaState) :=
  let fullBlocks := input.length / chachaBlockSize
  let r1? := if 0 < fullBlocks then chachaBlocksRefC s input out fullBlocks
             else some (out, s)
  r1?.bind fun r1 =>
    let off := fullBlocks * chachaBlockSize
    let inLen := input.length - off
    if 0 < inLen then
      let scratch := goCopyAt (List.replicate chachaBlockSize 0) 0 (input.drop off)
      (chachaBlocksRefC r1.2 scratch scratch 1).map
        fun r2 => (goCopyAt r1.1 off r2.1, r2.2)
    else some r1

/-- The initial ChaCha state: constants, 8 key words, counter, 3 nonce words. -/
def chachaInitState (key nonce : List Nat) (counter : Nat) : ChachaState :=
  ⟨sigma0, sigma1, sigma2, sigma3,
   leU32At key 0, leU32At key 4, leU32At key 8, leU32At key 12,
   leU32At key 16, leU32At key 20, leU32At key 24, leU32At key 28,
   u32 counter,
   leU32At nonce 0, leU32At nonce 4, leU32At nonce 8⟩

/-- Body of `chacha20` after its size checks: early-out on empty input,
truncate `input` to `out`'s length, then run the keystream XOR. -/
def chachaRun (key nonce input out : List Nat) (counter : Nat) : List Nat :=
  if input.length = 0 then out
  else
    let input := if out.length < input.length then input.take out.length else input
    (chachaXORKeyStreamRef (chachaInitState key nonce counter) input out).1

/-- `chacha20`: panics (`none`) on a wrong-size key or nonce, otherwise XORs
the keystream over `input` into `out` starting at block `counter`. -/
def chacha20 (key nonce input out : List Nat) (counter : Nat) : Option (List Nat) :=
  if key.length = chachaKeySize ∧ nonce.length = chachaNonceSize then
    some (chachaRun key nonce input out counter)
  else none

/-- `n` consecutive keystream blocks starting at state `s`. -/
def chachaKsBlocks (s : ChachaState) : Nat → List Nat
  | 0 => []
  | n + 1 => chachaKsBlock s ++ chachaKsBlocks (bumpCounter s) n

/-- The first `len` keystream bytes from state `s`. -/
def chachaKsStream (s : ChachaState) (len : Nat) : List Nat :=
  (chachaKsBlocks s ((len + 63) / 64)).take len

/-- The first `len` keystream bytes of ChaCha20 under `key`, `nonce`, starting
at block `counter`. -/
def chachaKeystreamBytes (key nonce : List Nat) (counter len : Nat) : List Nat :=
  chachaKsStream (chachaInitState key nonce counter) len

/-- Recursive little-endian word reader (proof-side companion of
`blockWords`). -/
def leWords : Nat → List Nat → List Nat
  | 0, _ => []
  | n + 1, bs => leU32At bs 0 :: leWords n (bs.drop 4)

/-! ## The HS1 hash (hs1.go) -/

def hs1NHLen : Nat := 64
def hs1HashRounds : Nat := 6
def hs1SIVLen : Nat := 32
def chacha20Rounds : Nat := 20

def m60 : Nat := 2 ^ 60 - 1
def m61 : Nat := 2 ^ 61 - 1

/-- The HS1 hash key schedule (`hs1Ctx`): `[36]uint32` NH key, `[6]uint64`
poly keys, `[18]uint64` ASU keys. -/
structure Hs1Ctx where
  nhKey : List Nat
  polyKey : List Nat
  asuKey : List Nat
deriving DecidableEq, Repr

/-- Well-formedness: field lengths of the fixed-size Go arrays. -/
def Hs1Ctx.wf (ctx : Hs1Ctx) : Prop :=
  ctx.nhKey.length = 36 ∧ ctx.polyKey.length = 6 ∧ ctx.asuKey.length = 18

instance (ctx : Hs1Ctx) : Decidable ctx.wf := by
  unfold Hs1Ctx.wf; infer_instance

/-- `polyStep`: 63-bit-intended value congruent to `a*k + b mod (2^61-1)`,
computed by splitting the 64-bit operands into 32-bit halves.  Every `uint64`
operation wraps; the single outer `% 2^64` is equivalent to wrapping each
addition in the chain. -/
def polyStep (a b k : Nat) : Nat :=
  let m := u64 (u32 (a >>> 32) * u32 k + u32 (k >>> 32) * u32 a)
  let h := u64 (u32 (a >>> 32) * u32 (k >>> 32))
  let l := u64 (u32 a * u32 k)
  u64 ((l &&& m61) + u64 (h <<< 3) + (l >>> 61) + b + (m >>> 29) + (u64 (m <<< 32) &&& m61))

/-- Arithmetic shift right by 63 of a `uint64` reinterpreted as `int64`:
all-zeros for a nonnegative value, all-ones for a negative one. -/
def sar63 (x : Nat) : Nat := if x < 2 ^ 63 then 0 else 2 ^ 64 - 1

/-- `polyFinalize`: constant-time reduction of `a mod (2^61-1)`; both
subtractions wrap as `uint64` operations, modelled by adding `2^64` before a
truncated `Nat` subtraction and reducing. -/
def polyFinalize (a : Nat) : Nat :=
  let a := (a &&& m61) + (a >>> 61)
  let mask := sar63 (u64 (2 ^ 64 + (m61 - 1) - a))
  u64 (2 ^ 64 + a - (mask &&& m61))

/-- `asuHash`: `uint32((k[0] + k[1]*uint32(x) + k[2]*uint32(x>>32)) >> 32)`. -/
def asuHash (x : Nat) (k : List Nat) : Nat :=
  u32 (u64 (k.getD 0 0 + k.getD 1 0 * u32 x + k.getD 2 0 * u32 (x >>> 32)) >>> 32)

/-- Bounds-checked `asuHash`: the Go body performs `_ = k[2]` first. -/
def asuHashC (x : Nat) (k : List Nat) : Option Nat :=
  if 2 < k.length then some (asuHash x k) else none

/-- One `j` iteration of the NH inner loop: with `kp := nhKey[i+j*4:]`, add
`(mp0+kp[0])*(mp2+kp[2]) + (mp1+kp[1])*(mp3+kp[3])` into lane `j` and
`(mp0+kp[4])*(mp2+kp[6]) + (mp1+kp[5])*(mp3+kp[7])` into lane `j+1` (the two
`+=` per lane are merged; addition wraps mod `2^64` either way). -/
def nhJ (ctx : Hs1Ctx) (i mp0 mp1 mp2 mp3 : Nat) (nhRes : List Nat) (j : Nat) : List Nat :=
  let kp := fun t => ctx.nhKey.getD (i + j * 4 + t) 0
  let r0 := u64 (nhRes.getD j 0 + u32 (mp0 + kp 0) * u32 (mp2 + kp 2) +
    u32 (mp1 + kp 1) * u32 (mp3 + kp 3))
  let r1 := u64 (nhRes.getD (j + 1) 0 + u32 (mp0 + kp 4) * u32 (mp2 + kp 6) +
    u32 (mp1 + kp 5) * u32 (mp3 + kp 7))
  (nhRes.set j r0).set (j + 1) r1

/-- The values taken by `j` in `for j := 0; j < hs1HashRounds; j += 2`. -/
def jVals : List Nat := [0, 2, 4]

/-- One 16-byte chunk: read `mp0..mp3` at offsets 0/4/8/12 of the current
input position and run the `j` loop. -/
def nhChunk (ctx : Hs1Ctx) (i : Nat) (rest : List Nat) (nhRes : List Nat) : List Nat :=
  jVals.foldl
    (nhJ ctx i (leU32At rest 0) (leU32At rest 4) (leU32At rest 8) (leU32At rest 12)) nhRes

/-- The chunk loop shared by `hashStep` (with `iv = [0,4,8,12]`) and
`hashFinalize` (with `iv = iVals inBytes`): for each `i` consume 16 bytes. -/
def nhBlockAux (ctx : Hs1Ctx) : List Nat → List Nat → List Nat → List Nat
  | [], _, nhRes => nhRes
  | i :: is, rest, nhRes => nhBlockAux ctx is (rest.drop 16) (nhChunk ctx i rest nhRes)

/-- Bounds-checked `nhJ`: `kp := nhKey[i+j*4:]` then `_ = kp[7]` requires
`i + j*4 + 8 ≤ len nhKey`; the lane writes require `j + 1 < len nhRes`. -/
def nhJC (ctx : Hs1Ctx) (i mp0 mp1 mp2 mp3 : Nat) (nhRes : List Nat) (j : Nat) :
    Option (List Nat) :=
  if i + j * 4 + 8 ≤ ctx.nhKey.length ∧ j + 1 < nhRes.length then
    some (nhJ ctx i mp0 mp1 mp2 mp3 nhRes j)
  else none

/-- Bounds-checked chunk: `_ = in[15]` requires 16 available bytes. -/
def nhChunkC (ctx : Hs1Ctx) (i : Nat) (rest : List Nat) (nhRes : List Nat) :
    Option (List Nat) :=
  if 15 < rest.length then
    jVals.foldlM
      (nhJC ctx i (leU32At rest 0) (leU32At rest 4) (leU32At rest 8) (leU32At rest 12)) nhRes
  else none

/-- Bounds-checked chunk loop. -/
def nhBlockAuxC (ctx : Hs1Ctx) : List Nat → List Nat → List Nat → Option (List Nat)
  | [], _, nhRes => some nhRes
  | i :: is, rest, nhRes =>
    (nhChunkC ctx i rest nhRes).bind fun nhRes => nhBlockAuxC ctx is (rest.drop 16) nhRes

/-- The poly accumulation of one lane pair:
`accum[j] = polyStep(accum[j], nhRes[j] & m60, polyKey[j])` and likewise for
lane `j+1`. -/
def polyAcc (ctx : Hs1Ctx) (nhRes accum : List Nat) (j : Nat) : List Nat :=
  (accum.set j
      (polyStep (accum.getD j 0) (nhRes.getD j 0 &&& m60) (ctx.polyKey.getD j 0))).set (j + 1)
    (polyStep (accum.getD (j + 1) 0) (nhRes.getD (j + 1) 0 &&& m60) (ctx.polyKey.getD (j + 1) 0))

/-- The `for j := 0; j < hs1HashRounds; j += 2` poly loop. -/
def polyAccAll (ctx : Hs1Ctx) (nhRes accum : List Nat) : List Nat :=
  jVals.foldl (polyAcc ctx nhRes) accum

/-- Bounds-checked `polyAcc` (lane and key indices must exist). -/
def polyAccC (ctx : Hs1Ctx) (nhRes accum : List Nat) (j : Nat) : Option (List Nat) :=
  if j + 1 < accum.length ∧ j + 1 < nhRes.length ∧ j + 1 < ctx.polyKey.length then
    some (polyAcc ctx nhRes accum j)
  else none

/-- Bounds-checked poly loop. -/
def polyAccAllC (ctx : Hs1Ctx) (nhRes accum : List Nat) : Option (List Nat) :=
  jVals.foldlM (polyAccC ctx nhRes) accum

/-- The block loop of `hashStep` with an explicit iteration bound: the loop of
the Go code runs while `inBytes > 0`, decrementing by 64, so it makes at most
`len msg` iterations; each iteration consumes one fuel unit and 64 input
bytes. -/
def hashStepF (ctx : Hs1Ctx) : Nat → List Nat → List Nat → List Nat
  | 0, _, accum => accum
  | fuel + 1, msg, accum =>
    if msg.length = 0 then accum
    else
      hashStepF ctx fuel (msg.drop 64)
        (polyAccAll ctx (nhBlockAux ctx [0, 4, 8, 12] msg (List.replicate hs1HashRounds 0)) accum)

/-- `hashStep`: absorb `msg` (whose length MUST be a multiple of 64) into the
accumulator, one 64-byte block at a time. -/
def hashStep (ctx : Hs1Ctx) (msg accum : List Nat) : List Nat :=
  hashStepF ctx msg.length msg accum

/-- Bounds-checked block loop with an explicit iteration bound. -/
def hashStepCF (ctx : Hs1Ctx) : Nat → List Nat → List Nat → Option (List Nat)
  | 0, _, accum => some accum
  | fuel + 1, msg, accum =>
    if msg.length = 0 then some accum
    else
      (nhBlockAuxC ctx [0, 4, 8, 12] msg (List.replicate hs1HashRounds 0)).bind fun nhRes =>
        (polyAccAllC ctx nhRes accum).bind fun accum => hashStepCF ctx fuel (msg.drop 64) accum

/-- Bounds-checked `hashStep`. -/
def hashStepC (ctx : Hs1Ctx) (msg accum : List Nat) : Option (List Nat) :=
  hashStepCF ctx msg.length msg accum

/-- The values taken by `i` in `for i := 0; 4*i < inBytes; i += 4` of
`hashFinalize` (one iteration per 16 input bytes, rounding up). -/
def iVals (inBytes : Nat) : List Nat :=
  (List.range ((inBytes + 15) / 16)).map fun t => 4 * t

/-- `PutUint32(result[off:], w)` with Go `copy`-like truncation; the checked
variant accounts for the bounds requirement. -/
def putU32At (result : List Nat) (off w : Nat) : List Nat :=
  goCopyAt result off (leBytes32 w)

/-- The output loop of `hashFinalize`: for each lane pair, finalize the two
poly accumulators, ASU-hash them, and write the two 32-bit results at offsets
`j*4` and `j*4+4`. -/
def hashFinOut (ctx : Hs1Ctx) (accum result : List Nat) : List Nat :=
  jVals.foldl
    (fun res j =>
      putU32At
        (putU32At res (j * 4) (asuHash (polyFinalize (accum.getD j 0)) (ctx.asuKey.drop (3 * j))))
        (j * 4 + 4) (asuHash (polyFinalize (accum.getD (j + 1) 0)) (ctx.asuKey.drop (3 * j + 3))))
    result

/-- `hashFinalize`: absorb the (≤ 64 byte, 16-multiple) tail if nonempty, then
produce the output words. -/
def hashFinalize (ctx : Hs1Ctx) (msg accum result : List Nat) : List Nat :=
  let accum :=
    if msg.length = 0 then accum
    else polyAccAll ctx (nhBlockAux ctx (iVals msg.length) msg (List.replicate hs1HashRounds 0))
      accum
  hashFinOut ctx accum result

/-- Bounds-checked `PutUint32`: requires 4 writable bytes at `off`. -/
def putU32AtC (result : List Nat) (off w : Nat) : Option (List Nat) :=
  if off + 4 ≤ result.length then some (putU32At result off w) else none

/-- Bounds-checked output loop of `hashFinalize`. -/
def hashFinOutC (ctx : Hs1Ctx) (accum result : List Nat) : Option (List Nat) :=
  jVals.foldlM
    (fun res j =>
      if j + 1 < accum.length then
        (asuHashC (polyFinalize (accum.getD j 0)) (ctx.asuKey.drop (3 * j))).bind fun s0 =>
          (asuHashC (polyFinalize (accum.getD (j + 1) 0)) (ctx.asuKey.drop (3 * j + 3))).bind
            fun s1 => (putU32AtC res (j * 4) s0).bind fun res => putU32AtC res (j * 4 + 4) s1
      else none)
    result

/-- Bounds-checked `hashFinalize`. -/
def hashFinalizeC (ctx : Hs1Ctx) (msg accum result : List Nat) : Option (List Nat) :=
  (if msg.length = 0 then some accum
   else
    (nhBlockAuxC ctx (iVals msg.length) msg (List.replicate hs1HashRounds 0)).bind fun nhRes =>
      polyAccAllC ctx nhRes accum).bind
    fun accum => hashFinOutC ctx accum result

/-! ## The AEAD (hs1siv.go) -/

def KeySize : Nat := 32
def NonceSize : Nat := 12
def TagSize : Nat := 32

def hashStateSize : Nat :=
  (hs1NHLen / 4 + 4 * (hs1HashRounds - 1)) * 4 + hs1HashRounds * 8 + hs1HashRounds * 3 * 8

def stateSize : Nat := chachaKeySize + hashStateSize

/-- The `settings` nonce constant (a `[12]byte` literal with 11 listed values,
the last byte implicitly zero). -/
def settings : List Nat :=
  [0, 0, hs1SIVLen, 0, chacha20Rounds, hs1HashRounds, hs1NHLen, 0, 0, 0, 0, 0]

/-- The AEAD key schedule (`aeadCtx`'s immutable part): ChaCha sub-key plus
hash key schedule. -/
structure AeadCtx where
  chachaKey : List Nat
  hashCtx : Hs1Ctx
deriving DecidableEq, Repr

/-- Well-formedness of a derived key schedule. -/
def AeadCtx.wf (ctx : AeadCtx) : Prop :=
  ctx.chachaKey.length = 32 ∧ ctx.hashCtx.wf

instance (ctx : AeadCtx) : Decidable ctx.wf := by
  unfold AeadCtx.wf; infer_instance

/-- `xorCopyChaChaKey`: XOR the first 24 bytes of `src` into `dst`, copy the
next `32-24` bytes (both buffers are 32 bytes at every call site). -/
def xorCopyChaChaKey (dst src : List Nat) : List Nat :=
  List.zipWith Nat.xor (dst.take 24) (src.take 24) ++ goCopyAt (dst.drop 24) 0 (src.drop 24)

/-- Parse the `stateSize` key-schedule bytes: ChaCha sub-key, then 36 LE32 NH
key words, then 6 LE64 poly keys masked to 60 bits, then 18 LE64 ASU keys
(offsets 32, 176 and 224 are the running `off` values of `setup`). -/
def parseSchedule (buf : List Nat) : AeadCtx :=
  { chachaKey := buf.take chachaKeySize
    hashCtx :=
      { nhKey := (List.range 36).map fun i => leU32At buf (32 + 4 * i)
        polyKey := (List.range 6).map fun i => leU64At buf (176 + 8 * i) &&& m60
        asuKey := (List.range 18).map fun i => leU64At buf (224 + 8 * i) } }

/-- `aeadCtx.setup`: derive the key schedule by running ChaCha20 over a zero
`stateSize` buffer, keyed with the user key and the `settings` nonce whose
first byte is the key length. -/
def setup (userKey : List Nat) : Option AeadCtx :=
  (chacha20 userKey (userKey.length % 256 :: settings.drop 1)
      (List.replicate stateSize 0) (List.replicate stateSize 0) 0).map parseSchedule

/-- `sivSetup`'s length buffer: 8-byte LE associated-data length followed by
8-byte LE message length. -/
def sivLenBufBytes (aBytes mBytes : Nat) : List Nat :=
  leBytes64 aBytes ++ leBytes64 mBytes

/-- Copy a sub-64-byte tail into a zeroed 64-byte block
(`var buf [hs1NHLen]byte; copy(buf[:], tail)`). -/
def pad64 (tail : List Nat) : List Nat :=
  goCopyAt (List.replicate hs1NHLen 0) 0 tail

/-- `aeadCtx.sivHashAD`: absorb the 64-multiple prefix of the associated data
via `hashStep`, then a zero-padded final block if a remainder exists. -/
def sivHashAD (ctx : AeadCtx) (accum a : List Nat) : List Nat :=
  let nhMultiple := 64 * (a.length / 64)
  let accum := hashStep ctx.hashCtx (a.take nhMultiple) accum
  if nhMultiple < a.length then hashStep ctx.hashCtx (pad64 (a.drop nhMultiple)) accum
  else accum

/-- The `mBytesWithPadding` value of `sivGenerate`: the message tail length
rounded up to a multiple of 16. -/
def tailPadLen (mLen : Nat) : Nat :=
  16 * ((mLen - 64 * (mLen / 64) + 15) / 16)

/-- The `buf[:mBytesWithPadding+16]` argument of the second `hashFinalize`
branch: message tail zero-padded to `mBytesWithPadding`, followed by the
16-byte length buffer. -/
def sivGenTailBuf (tail lenBuf : List Nat) : List Nat :=
  (goCopyAt (pad64 tail) (16 * ((tail.length + 15) / 16)) lenBuf).take
    (16 * ((tail.length + 15) / 16) + 16)

/-- The hashing part of `aeadCtx.sivGenerate`: absorb the message and the
length buffer, producing the 32-byte `chachaKey` work buffer (of which
`hashFinalize` fills the first 24 bytes, the rest staying zero). -/
def sivGenAccum (ctx : AeadCtx) (accum m lenBuf : List Nat) : List Nat :=
  let nhMultiple := 64 * (m.length / 64)
  let accum := hashStep ctx.hashCtx (m.take nhMultiple) accum
  if tailPadLen m.length = hs1NHLen then
    hashFinalize ctx.hashCtx lenBuf
      (hashStep ctx.hashCtx (pad64 (m.drop nhMultiple)) accum) (List.replicate 32 0)
  else
    hashFinalize ctx.hashCtx (sivGenTailBuf (m.drop nhMultiple) lenBuf) accum
      (List.replicate 32 0)

/-- `aeadCtx.sivGenerate`: hash the message, partial-rekey with the cipher
sub-key, and generate the SIV as the ChaCha20 encryption of `hs1SIVLen` zero
bytes at counter 0. -/
def sivGenerate (ctx : AeadCtx) (accum m lenBuf n sivOut : List Nat) : Option (List Nat) :=
  chacha20 (xorCopyChaChaKey (sivGenAccum ctx accum m lenBuf) ctx.chachaKey) n
    (List.replicate hs1SIVLen 0) sivOut 0

/-- `aeadCtx.encrypt`: derive the SIV over (AD, message), re-key from the SIV,
encrypt the message at counter 1 into `c0`, then copy the SIV over the last 32
bytes.  `c0` is the output buffer (`len m + 32` bytes at the call site). -/
def encrypt (ctx : AeadCtx) (m a n c0 : List Nat) : Option (List Nat) :=
  let lenBuf := sivLenBufBytes a.length m.length
  let sivAccum := sivHashAD ctx (List.replicate hs1HashRounds 1) a
  (sivGenerate ctx sivAccum m lenBuf n (List.replicate hs1SIVLen 0)).bind fun siv =>
    (chacha20
        (xorCopyChaChaKey
          (hashFinalize ctx.hashCtx siv (List.replicate hs1HashRounds 1) (List.replicate 32 0))
          ctx.chachaKey)
        n m c0 1).map
      fun c => goCopyAt c m.length siv

/-- Go's `subtle.ConstantTimeCompare(x, y) == 1`. -/
def ctCompare (x y : List Nat) : Bool := x == y

/-- `aeadCtx.decrypt`: reject short ciphertexts, split off the claimed SIV,
re-derive the message key from it, hash the AD, decrypt the body into `m0`,
recompute the SIV over (AD, candidate plaintext) and compare. -/
def decrypt (ctx : AeadCtx) (c a n m0 : List Nat) : Option (Bool × List Nat) :=
  if c.length < hs1SIVLen then some (false, m0)
  else
    let mBytes := c.length - hs1SIVLen
    let siv := (c.drop mBytes).take hs1SIVLen
    let nonce := goCopyAt (List.replicate NonceSize 0) 0 n
    let key :=
      xorCopyChaChaKey
        (hashFinalize ctx.hashCtx siv (List.replicate hs1HashRounds 1) (List.replicate 32 0))
        ctx.chachaKey
    let lenBuf := sivLenBufBytes a.length m0.length
    let sivAccum := sivHashAD ctx (List.replicate hs1HashRounds 1) a
    (chacha20 key nonce (c.take mBytes) m0 1).bind fun m =>
      (sivGenerate ctx sivAccum m lenBuf nonce (List.replicate hs1SIVLen 0)).map
        fun maybeSIV => (ctCompare siv maybeSIV, m)

/-- The ChaCha key `sivGenerate` derives for the SIV generation of a Seal with
plaintext `p` and associated data `a` (hash of AD then message then length
block, partially re-keyed with the cipher sub-key). -/
def sealSivKey (ctx : AeadCtx) (p a : List Nat) : List Nat :=
  xorCopyChaChaKey
    (sivGenAccum ctx (sivHashAD ctx (List.replicate hs1HashRounds 1) a) p
      (sivLenBufBytes a.length p.length))
    ctx.chachaKey

/-- The 32-byte SIV/tag a Seal with plaintext `p`, AD `a` and nonce `n`
produces: ChaCha20 of 32 zero bytes under `sealSivKey` at counter 0. -/
def sealTag (ctx : AeadCtx) (p a n : List Nat) : List Nat :=
  chachaRun (sealSivKey ctx p a) n (List.replicate hs1SIVLen 0)
    (List.replicate hs1SIVLen 0) 0

/-- The message-encryption key derived from a (claimed or generated) SIV:
`hashFinalize` of the SIV from a fresh all-one accumulator, partially re-keyed
with the cipher sub-key. -/
def sealMsgKey (ctx : AeadCtx) (tag : List Nat) : List Nat :=
  xorCopyChaChaKey
    (hashFinalize ctx.hashCtx tag (List.replicate hs1HashRounds 1) (List.replicate 32 0))
    ctx.chachaKey

/-- The bytes a successful `Seal` appends to `dst`. -/
def sealBytes (key n p a : List Nat) : List Nat :=
  ((setup key).bind fun ctx =>
    encrypt ctx p a n (List.replicate (p.length + TagSize) 0)).getD []

/-- The stream of bytes `sivHashAD` feeds to `hashStep`: the 64-multiple
prefix of the AD followed by the zero-padded final block when a remainder
exists. -/
def sivHashADStream (a : List Nat) : List Nat :=
  a.take (64 * (a.length / 64)) ++
    (if 64 * (a.length / 64) < a.length then pad64 (a.drop (64 * (a.length / 64))) else [])

/-- The stream of bytes `sivGenerate` feeds to `hashStep`: the 64-multiple
prefix of the message, plus the zero-padded tail block in the
`mBytesWithPadding == hs1NHLen` branch. -/
def sivGenStepStream (m : List Nat) : List Nat :=
  m.take (64 * (m.length / 64)) ++
    (if tailPadLen m.length = hs1NHLen then pad64 (m.drop (64 * (m.length / 64))) else [])

/-- The final chunk `sivGenerate` passes to `hashFinalize`: either the bare
16-byte length buffer, or the padded message tail with the length buffer
appended. -/
def sivGenFinChunk (m lenBuf : List Nat) : List Nat :=
  if tailPadLen m.length = hs1NHLen then lenBuf
  else sivGenTailBuf (m.drop (64 * (m.length / 64))) lenBuf

/-- The full byte stream absorbed by the SIV hash during a Seal with
plaintext `m` and AD `a`, in absorption order. -/
def sealHashStream (a m : List Nat) : List Nat :=
  sivHashADStream a ++ sivGenStepStream m ++ sivGenFinChunk m (sivLenBufBytes a.length m.length)

/-- The absorption order claim C5 asserts (written from the spec words, for
comparison): the 16-byte length block first, then the AD stream, then the
message stream. -/
def specClaimedStream (a m : List Nat) : List Nat :=
  sivLenBufBytes a.length m.length ++ sivHashADStream a ++ sivGenStepStream m

/-- `sliceForAppend`: extend `input` by `n` bytes.  Capacity is modelled as
equal to length, so a growing append reallocates into a zeroed tail.  A
negative `total` makes `in[:total]` panic; `0 ≤ total < len(in)` (any negative
`n`) makes `tail = head[len(in):]` panic, since `head` is then shorter than
`len(in)`. -/
def sliceForAppend (input : List Nat) (n : Int) : GoResult (List Nat × List Nat) :=
  let total : Int := input.length + n
  if total < 0 then .panicked
  else if total < (input.length : Int) then .panicked
  else
    .ok (input ++ List.replicate (total.toNat - input.length) 0,
      List.replicate (total.toNat - input.length) 0)

/-- `AEAD.Seal`: panic on a wrong-size nonce (or, inside `setup`'s ChaCha call,
a wrong-size key), extend `dst` by `len p + TagSize` bytes and encrypt into the
extension. -/
def Seal (key dst nonce p ad : List Nat) : GoResult (List Nat) :=
  if nonce.length ≠ NonceSize then .panicked
  else
    match setup key with
    | none => .panicked
    | some ctx =>
      match sliceForAppend dst ((p.length : Int) + (TagSize : Int)) with
      | .panicked => .panicked
      | .ok (head, tail) =>
        match encrypt ctx p ad nonce tail with
        | none => .panicked
        | some c => .ok (head.take (head.length - tail.length) ++ c)

/-- `AEAD.Open`: the returned triple is (returned plaintext slice or `none`
for a `nil` return, whether `ErrOpen` was returned, final contents of the
`head` buffer).  On authentication failure the freshly written plaintext
region is zeroed and, when nonempty, the returned slice is `nil`. -/
def Open (key dst nonce c ad : List Nat) :
    GoResult (Option (List Nat) × Bool × List Nat) :=
  if nonce.length ≠ NonceSize then .panicked
  else
    match setup key with
    | none => .panicked
    | some ctx =>
      match sliceForAppend dst ((c.length : Int) - (TagSize : Int)) with
      | .panicked => .panicked
      | .ok (head, tail) =>
        match decrypt ctx c ad nonce tail with
        | none => .panicked
        | some (ok, m) =>
          let dstPart := head.take (head.length - tail.length)
          if ok then .ok (some (dstPart ++ m), false, dstPart ++ m)
          else if 0 < tail.length then
            .ok (none, true, dstPart ++ List.replicate m.length 0)
          else .ok (some (dstPart ++ m), true, dstPart ++ m)

/-! ## Poly arithmetic (claim C7) -/

/-- An all-zero hash key schedule, used as a concrete evaluation point. -/
def zeroHashCtx : Hs1Ctx :=
  ⟨List.replicate 36 0, List.replicate 6 0, List.replicate 18 0⟩

/-! ## Buffer-copy lemmas -/

theorem length_goCopyAt (dst : List Nat) (off : Nat) (src : List Nat) :
    (goCopyAt dst off src).length = dst.length := by
  simp only [goCopyAt, List.length_append, List.length_take, List.length_drop]
  omega

theorem getElem?_goCopyAt (dst : List Nat) (off : Nat) (src : List Nat) (i : Nat)
    (h : off ≤ dst.length) :
    (goCopyAt dst off src)[i]? =
      if off ≤ i ∧ i < off + src.length ∧ i < dst.length then src[i - off]? else dst[i]? := by
  unfold goCopyAt
  have hta : (dst.take off).length = off := by simp [List.length_take]; omega
  have htb : (src.take (dst.length - off)).length = min (dst.length - off) src.length := by
    simp [List.length_take]
  rcases Nat.lt_or_ge i off with h1 | h1
  · rw [List.getElem?_append_left (by rw [List.length_append]; omega),
      List.getElem?_append_left (by omega), List.getElem?_take_of_lt h1, if_neg (by omega)]
  · rcases Nat.lt_or_ge i (off + min (dst.length - off) src.length) with h2 | h2
    · rw [List.getElem?_append_left (by rw [List.length_append]; omega),
        List.getElem?_append_right (by omega), hta,
        List.getElem?_take_of_lt (by omega), if_pos (by omega)]
    · rw [List.getElem?_append_right (by rw [List.length_append]; omega),
        List.length_append, hta, htb, List.getElem?_drop]
      rcases Nat.lt_or_ge (dst.length - off) src.length with h3 | h3
      case _ =>
        have hnone : dst.length ≤ i := by omega
        rw [if_neg (by omega), List.getElem?_eq_none (by omega),
          List.getElem?_eq_none hnone]
      case _ =>
        rw [if_neg (by omega)]
        congr 1
        omega

theorem goCopyAt_drop_of_le (dst : List Nat) (off : Nat) (src : List Nat) (k : Nat)
    (h : off ≤ dst.length) (hk : off + src.length ≤ k) :
    (goCopyAt dst off src).drop k = dst.drop k := by
  apply List.ext_getElem?
  intro n
  rw [List.getElem?_drop, List.getElem?_drop, getElem?_goCopyAt _ _ _ _ h, if_neg (by omega)]

theorem goCopyAt_take_of_le (dst : List Nat) (off : Nat) (src : List Nat) (k : Nat)
    (h : off ≤ dst.length) (hk : k ≤ off) :
    (goCopyAt dst off src).take k = dst.take k := by
  apply List.ext_getElem?
  intro n
  rcases Nat.lt_or_ge n k with h1 | h1
  · rw [List.getElem?_take_of_lt h1, List.getElem?_take_of_lt h1,
      getElem?_goCopyAt _ _ _ _ h, if_neg (by omega)]
  · rw [List.getElem?_eq_none, List.getElem?_eq_none]
    · simp only [List.length_take]
      omega
    · simp only [List.length_take, length_goCopyAt]
      omega

theorem goCopyAt_eq_append (dst : List Nat) (off : Nat) (src : List Nat)
    (h2 : off + src.length ≤ dst.length) :
    goCopyAt dst off src = dst.take off ++ src ++ dst.drop (off + src.length) := by
  unfold goCopyAt
  rw [show src.take (dst.length - off) = src from List.take_of_length_le (by omega)]

theorem goCopyAt_append_exact (x y src : List Nat) (h : src.length = y.length) :
    goCopyAt (x ++ y) x.length src = x ++ src := by
  rw [goCopyAt_eq_append _ _ _ (by simp [List.length_append]; omega), List.take_left,
    List.drop_append_eq_append_drop]
  simp [h]

theorem goCopyAt_zero_full (dst src : List Nat) (h : dst.length ≤ src.length) :
    goCopyAt dst 0 src = src.take dst.length := by
  unfold goCopyAt
  simp only [Nat.sub_zero, List.take_zero, List.nil_append, Nat.zero_add]
  rw [List.drop_eq_nil_of_le (by omega), List.append_nil]

theorem goCopyAt_zero_of_le (dst src : List Nat) (h : src.length ≤ dst.length) :
    goCopyAt dst 0 src = src ++ dst.drop src.length := by
  rw [goCopyAt_eq_append _ _ _ (by omega)]
  simp

/-- `polyFinalize` computes the canonical residue modulo `2^61 - 1` of any
64-bit value. -/
theorem polyFinalize_eq (x : Nat) (hx : x < 2 ^ 64) : polyFinalize x = x % m61 := by
  simp only [polyFinalize, u64, m61, sar63, Nat.shiftRight_eq_div_pow,
    Nat.and_pow_two_sub_one_eq_mod]
  have hr : x % 2 ^ 61 < 2 ^ 61 := Nat.mod_lt _ (by norm_num)
  have hq : x / 2 ^ 61 <= 7 := by omega
  have hrel : 2 ^ 61 * (x / 2 ^ 61) + x % 2 ^ 61 = x := Nat.div_add_mod x (2 ^ 61)
  generalize hgr : x % 2 ^ 61 = r at *
  generalize hgq : x / 2 ^ 61 = q at *
  have hsm : ∀ y : Nat, y < 2 ^ 64 → (2 ^ 64 + y) % 2 ^ 64 = y := fun y hy => by omega
  by_cases hc : r + q <= 2 ^ 61 - 1 - 1
  · have hmask : (2 ^ 64 + (2 ^ 61 - 1 - 1) - (r + q)) % 2 ^ 64 < 2 ^ 63 := by
      rw [show 2 ^ 64 + (2 ^ 61 - 1 - 1) - (r + q) = 2 ^ 64 + (2 ^ 61 - 1 - 1 - (r + q)) by
        omega]
      rw [hsm _ (by omega)]
      omega
    rw [if_pos hmask, Nat.zero_mod, Nat.sub_zero, hsm _ (by omega)]
    omega
  · have hmask : ¬ (2 ^ 64 + (2 ^ 61 - 1 - 1) - (r + q)) % 2 ^ 64 < 2 ^ 63 := by
      rw [show 2 ^ 64 + (2 ^ 61 - 1 - 1) - (r + q) = 2 ^ 64 - (r + q - (2 ^ 61 - 1 - 1)) by
        omega]
      rw [Nat.mod_eq_of_lt (by omega)]
      omega
    rw [if_neg hmask]
    have hand : (2 ^ 64 - 1) % 2 ^ 61 = 2 ^ 61 - 1 := by decide
    rw [hand]
    rw [show 2 ^ 64 + (r + q) - (2 ^ 61 - 1) = 2 ^ 64 + (r + q - (2 ^ 61 - 1)) by omega]
    rw [hsm _ (by omega)]
    omega

/-! ## hashFinalize output size (claim C6) -/

theorem length_leBytes32 (w : Nat) : (leBytes32 w).length = 4 := rfl

theorem length_putU32At (res : List Nat) (off w : Nat) :
    (putU32At res off w).length = res.length :=
  length_goCopyAt res off (leBytes32 w)

theorem putU32At_drop24 (res : List Nat) (off w : Nat) (h1 : off + 4 <= 24)
    (h2 : 24 <= res.length) : (putU32At res off w).drop 24 = res.drop 24 :=
  goCopyAt_drop_of_le res off (leBytes32 w) 24 (by omega) (by rw [length_leBytes32]; omega)

theorem hashFinOut_length (ctx : Hs1Ctx) (accum result : List Nat) :
    (hashFinOut ctx accum result).length = result.length := by
  simp [hashFinOut, jVals, length_putU32At]

theorem hashFinOut_drop24 (ctx : Hs1Ctx) (accum result : List Nat) (h : 24 <= result.length) :
    (hashFinOut ctx accum result).drop 24 = result.drop 24 := by
  simp only [hashFinOut, jVals, List.foldl_cons, List.foldl_nil]
  rw [putU32At_drop24 _ _ _ (by omega) (by simp [length_putU32At]; omega),
    putU32At_drop24 _ _ _ (by omega) (by simp [length_putU32At]; omega),
    putU32At_drop24 _ _ _ (by omega) (by simp [length_putU32At]; omega),
    putU32At_drop24 _ _ _ (by omega) (by simp [length_putU32At]; omega),
    putU32At_drop24 _ _ _ (by omega) (by simp [length_putU32At]; omega),
    putU32At_drop24 _ _ _ (by omega) h]

theorem hashFinalize_length (ctx : Hs1Ctx) (msg accum result : List Nat) :
    (hashFinalize ctx msg accum result).length = result.length := by
  unfold hashFinalize
  exact hashFinOut_length ..

theorem hashFinalize_drop24 (ctx : Hs1Ctx) (msg accum result : List Nat)
    (h : 24 <= result.length) :
    (hashFinalize ctx msg accum result).drop 24 = result.drop 24 := by
  unfold hashFinalize
  exact hashFinOut_drop24 _ _ _ h

/-- C6 counterexample: `hashFinalize` does not write 32 bytes of output.  With
`rounds = 6` it writes only the first 24 bytes of the result buffer: on an
all-zero key schedule, empty tail and all-one accumulator, bytes 24..31 of the
result buffer keep their previous contents (so two different initial buffers
give different results, which would be impossible if all 32 bytes were
written as output of the hash). -/
theorem hashFinalize_not_32_bytes :
    (hashFinalize zeroHashCtx [] (List.replicate 6 1) (List.replicate 32 170)).drop 24 =
        List.replicate 8 170 ∧
      hashFinalize zeroHashCtx [] (List.replicate 6 1) (List.replicate 32 170) ≠
        hashFinalize zeroHashCtx [] (List.replicate 6 1) (List.replicate 32 9) := by
  constructor
  · decide
  · decide

/-- C6 (amended): for every hash context, tail and accumulator, and any result
buffer of at least 24 bytes, `hashFinalize` writes exactly 24 bytes
(`4 * rounds`, i.e. three pairs of 32-bit ASU outputs) at the start of the
result buffer and leaves every byte from offset 24 on unchanged. -/
theorem hashFinalize_writes_24 (ctx : Hs1Ctx) (msg accum result : List Nat)
    (h : 24 <= result.length) :
    (hashFinalize ctx msg accum result).length = result.length ∧
      (hashFinalize ctx msg accum result).drop 24 = result.drop 24 ∧
      ∃ digest, digest.length = 24 ∧
        hashFinalize ctx msg accum result = digest ++ result.drop 24 := by
  refine ⟨hashFinalize_length .., hashFinalize_drop24 _ _ _ _ h, ?_⟩
  refine ⟨(hashFinalize ctx msg accum result).take 24, ?_, ?_⟩
  · rw [List.length_take, hashFinalize_length]
    omega
  · conv_lhs => rw [← List.take_append_drop 24 (hashFinalize ctx msg accum result)]
    rw [hashFinalize_drop24 _ _ _ _ h]

/-- Witness for `hashFinalize_writes_24` at a concrete input. -/
theorem hashFinalize_writes_24_witness :
    (hashFinalize zeroHashCtx [] (List.replicate 6 1) (List.replicate 32 7)).length = 32 ∧
      (hashFinalize zeroHashCtx [] (List.replicate 6 1) (List.replicate 32 7)).drop 24 =
        (List.replicate 32 7).drop 24 := by
  have h := hashFinalize_writes_24 zeroHashCtx [] (List.replicate 6 1) (List.replicate 32 7)
    (by decide)
  exact ⟨by rw [h.1]; rfl, h.2.1⟩

/-- Under the documented operand bounds, none of the `uint64` operations in
`polyStep` wraps: the result equals the untruncated arithmetic expression. -/
theorem polyStep_nowrap (a b k : Nat) (ha : a < 2 ^ 63) (hb : b < 2 ^ 60) (hk : k < 2 ^ 60) :
    polyStep a b k =
      a % 2 ^ 32 * (k % 2 ^ 32) % 2 ^ 61 + 8 * (a / 2 ^ 32 * (k / 2 ^ 32)) +
        a % 2 ^ 32 * (k % 2 ^ 32) / 2 ^ 61 + b +
        (a / 2 ^ 32 * (k % 2 ^ 32) + k / 2 ^ 32 * (a % 2 ^ 32)) / 2 ^ 29 +
        (a / 2 ^ 32 * (k % 2 ^ 32) + k / 2 ^ 32 * (a % 2 ^ 32)) * 2 ^ 32 % 2 ^ 61 := by
  have h32 : (0:Nat) < 2 ^ 32 := by norm_num
  have hA : a / 2 ^ 32 < 2 ^ 31 := by omega
  have hK : k / 2 ^ 32 < 2 ^ 28 := by omega
  have hLa : a % 2 ^ 32 < 2 ^ 32 := Nat.mod_lt _ h32
  have hLk : k % 2 ^ 32 < 2 ^ 32 := Nat.mod_lt _ h32
  have hl : a % 2 ^ 32 * (k % 2 ^ 32) ≤ (2 ^ 32 - 1) * (2 ^ 32 - 1) :=
    Nat.mul_le_mul (by omega) (by omega)
  have hh : a / 2 ^ 32 * (k / 2 ^ 32) ≤ (2 ^ 31 - 1) * (2 ^ 28 - 1) :=
    Nat.mul_le_mul (by omega) (by omega)
  have hm : a / 2 ^ 32 * (k % 2 ^ 32) + k / 2 ^ 32 * (a % 2 ^ 32) ≤
      (2 ^ 31 - 1) * (2 ^ 32 - 1) + (2 ^ 28 - 1) * (2 ^ 32 - 1) :=
    Nat.add_le_add (Nat.mul_le_mul (by omega) (by omega)) (Nat.mul_le_mul (by omega) (by omega))
  simp only [polyStep, u64, u32, m61, Nat.shiftRight_eq_div_pow, Nat.shiftLeft_eq,
    Nat.and_pow_two_sub_one_eq_mod]
  rw [Nat.mod_eq_of_lt (show a / 2 ^ 32 < 2 ^ 32 by omega),
    Nat.mod_eq_of_lt (show k / 2 ^ 32 < 2 ^ 32 by omega),
    Nat.mod_mod_of_dvd _ (show (2:Nat) ^ 61 ∣ 2 ^ 64 by norm_num)]
  generalize hgl : a % 2 ^ 32 * (k % 2 ^ 32) = l at *
  generalize hgh : a / 2 ^ 32 * (k / 2 ^ 32) = h at *
  generalize hgm : a / 2 ^ 32 * (k % 2 ^ 32) + k / 2 ^ 32 * (a % 2 ^ 32) = m at *
  rw [Nat.mod_eq_of_lt (show m < 2 ^ 64 by omega),
    Nat.mod_eq_of_lt (show h < 2 ^ 64 by omega),
    Nat.mod_eq_of_lt (show l < 2 ^ 64 by omega),
    Nat.mod_eq_of_lt (show h * 2 ^ 3 < 2 ^ 64 by omega)]
  rw [Nat.mod_eq_of_lt]
  · omega
  · have e1 : l % 2 ^ 61 < 2 ^ 61 := Nat.mod_lt _ (by norm_num)
    have e2 : m * 2 ^ 32 % 2 ^ 61 < 2 ^ 61 := Nat.mod_lt _ (by norm_num)
    omega

/-- C7 counterexample: the claim asserts `polyStep` fits in 63 bits for every
`a < 2^63`, `b, k < 2^60`; this concrete in-range triple produces a value
`≥ 2^63` (while still fitting in 64 bits). -/
theorem polyStep_not_63_bits :
    9223372031486068982 < 2 ^ 63 ∧ 1152921504606846975 < 2 ^ 60 ∧
      1152921496016909324 < 2 ^ 60 ∧
      ¬ polyStep 9223372031486068982 1152921504606846975 1152921496016909324 < 2 ^ 63 := by
  refine ⟨by norm_num, by norm_num, by norm_num, ?_⟩
  decide

/-- C7 (amended): for `a < 2^63` and `b, k < 2^60`, `polyStep` performs the
split multiply without any 64-bit overflow (the wrap-free formula above), its
result is bounded by `2^63 + 2^61` (not by `2^63`), and it is congruent to
`a·k + b` modulo `2^61 - 1`; and `polyFinalize` maps every `x < 2^64` to the
canonical residue `x % (2^61 - 1)`, which lies in `[0, 2^61 - 2]`. -/
theorem polyStep_polyFinalize_correct (a b k x : Nat) (ha : a < 2 ^ 63) (hb : b < 2 ^ 60)
    (hk : k < 2 ^ 60) (hx : x < 2 ^ 64) :
    polyStep a b k < 2 ^ 63 + 2 ^ 61 ∧
      polyStep a b k % m61 = (a * k + b) % m61 ∧
      polyFinalize x = x % m61 ∧ x % m61 ≤ 2 ^ 61 - 2 := by
  have h32 : (0:Nat) < 2 ^ 32 := by norm_num
  have hstep := polyStep_nowrap a b k ha hb hk
  have hA : a / 2 ^ 32 < 2 ^ 31 := by omega
  have hK : k / 2 ^ 32 < 2 ^ 28 := by omega
  have hLa : a % 2 ^ 32 < 2 ^ 32 := Nat.mod_lt _ h32
  have hLk : k % 2 ^ 32 < 2 ^ 32 := Nat.mod_lt _ h32
  have hl : a % 2 ^ 32 * (k % 2 ^ 32) ≤ (2 ^ 32 - 1) * (2 ^ 32 - 1) :=
    Nat.mul_le_mul (by omega) (by omega)
  have hh : a / 2 ^ 32 * (k / 2 ^ 32) ≤ (2 ^ 31 - 1) * (2 ^ 28 - 1) :=
    Nat.mul_le_mul (by omega) (by omega)
  have hm : a / 2 ^ 32 * (k % 2 ^ 32) + k / 2 ^ 32 * (a % 2 ^ 32) ≤
      (2 ^ 31 - 1) * (2 ^ 32 - 1) + (2 ^ 28 - 1) * (2 ^ 32 - 1) :=
    Nat.add_le_add (Nat.mul_le_mul (by omega) (by omega)) (Nat.mul_le_mul (by omega) (by omega))
  have hak : a * k =
      2 ^ 64 * (a / 2 ^ 32 * (k / 2 ^ 32)) +
        (a / 2 ^ 32 * (k % 2 ^ 32) + k / 2 ^ 32 * (a % 2 ^ 32)) * 2 ^ 32 +
        a % 2 ^ 32 * (k % 2 ^ 32) := by
    conv_lhs => rw [← Nat.div_add_mod a (2 ^ 32), ← Nat.div_add_mod k (2 ^ 32)]
    ring
  refine ⟨?_, ?_, ?_, ?_⟩
  · rw [hstep]
    generalize a % 2 ^ 32 * (k % 2 ^ 32) = l at *
    generalize a / 2 ^ 32 * (k / 2 ^ 32) = h at *
    generalize a / 2 ^ 32 * (k % 2 ^ 32) + k / 2 ^ 32 * (a % 2 ^ 32) = m at *
    have e1 : l % 2 ^ 61 < 2 ^ 61 := Nat.mod_lt _ (by norm_num)
    have e2 : m * 2 ^ 32 % 2 ^ 61 < 2 ^ 61 := Nat.mod_lt _ (by norm_num)
    omega
  · rw [hstep, hak]
    generalize a % 2 ^ 32 * (k % 2 ^ 32) = l at *
    generalize a / 2 ^ 32 * (k / 2 ^ 32) = h at *
    generalize a / 2 ^ 32 * (k % 2 ^ 32) + k / 2 ^ 32 * (a % 2 ^ 32) = m at *
    have key : 2 ^ 64 * h + m * 2 ^ 32 + l + b =
        l % 2 ^ 61 + 8 * h + l / 2 ^ 61 + b + m / 2 ^ 29 + m * 2 ^ 32 % 2 ^ 61 +
          m61 * (8 * h + m * 2 ^ 32 / 2 ^ 61 + l / 2 ^ 61) := by
      have hq : m * 2 ^ 32 / 2 ^ 61 = m / 2 ^ 29 := by
        rw [show (2:Nat) ^ 61 = 2 ^ 29 * 2 ^ 32 by norm_num]
        exact Nat.mul_div_mul_right _ _ h32
      simp only [m61]
      omega
    rw [key, Nat.add_mul_mod_self_left]
  · exact polyFinalize_eq x hx
  · have : (0:Nat) < m61 := by norm_num [m61]
    have := Nat.mod_lt x this
    simp only [m61] at *
    omega

/-- Witness for `polyStep_polyFinalize_correct` at a concrete input. -/
theorem polyStep_polyFinalize_correct_witness :
    polyStep 5 6 7 % m61 = (5 * 7 + 6) % m61 ∧ polyFinalize 9 = 9 % m61 := by
  have h := polyStep_polyFinalize_correct 5 6 7 9 (by norm_num) (by norm_num) (by norm_num)
    (by norm_num)
  exact ⟨h.2.1, h.2.2.1⟩

/-! ## Checked hash = plain hash under the call-site preconditions (claim C10) -/

theorem length_nhJ (ctx : Hs1Ctx) (i m0 m1 m2 m3 : Nat) (nh : List Nat) (j : Nat) :
    (nhJ ctx i m0 m1 m2 m3 nh j).length = nh.length := by
  simp [nhJ]

theorem length_nhChunk (ctx : Hs1Ctx) (i : Nat) (rest nh : List Nat) :
    (nhChunk ctx i rest nh).length = nh.length := by
  simp [nhChunk, jVals, length_nhJ]

theorem length_nhBlockAux (ctx : Hs1Ctx) (ivs : List Nat) :
    ∀ rest nh, (nhBlockAux ctx ivs rest nh).length = nh.length := by
  induction ivs with
  | nil => intro rest nh; rfl
  | cons i is ih =>
    intro rest nh
    rw [nhBlockAux, ih, length_nhChunk]

theorem length_polyAcc (ctx : Hs1Ctx) (nh accum : List Nat) (j : Nat) :
    (polyAcc ctx nh accum j).length = accum.length := by
  simp [polyAcc]

theorem length_polyAccAll (ctx : Hs1Ctx) (nh accum : List Nat) :
    (polyAccAll ctx nh accum).length = accum.length := by
  simp [polyAccAll, jVals, length_polyAcc]

theorem length_hashStepF (ctx : Hs1Ctx) :
    ∀ fuel msg accum, (hashStepF ctx fuel msg accum).length = accum.length := by
  intro fuel
  induction fuel with
  | zero => intro msg accum; rfl
  | succ n ih =>
    intro msg accum
    rw [hashStepF]
    by_cases h0 : msg.length = 0
    · rw [if_pos h0]
    · rw [if_neg h0, ih, length_polyAccAll]

theorem length_hashStep (ctx : Hs1Ctx) :
    ∀ fuel msg accum, msg.length ≤ fuel → (hashStep ctx msg accum).length = accum.length :=
  fun _ msg accum _ => length_hashStepF ctx msg.length msg accum

theorem foldlM_eq_foldl {α β : Type} (P : α → Prop) (f : α → β → Option α) (g : α → β → α)
    (l : List β) : ∀ b, P b → (∀ x b', x ∈ l → P b' → f b' x = some (g b' x)) →
      (∀ x b', x ∈ l → P b' → P (g b' x)) → List.foldlM f b l = some (List.foldl g b l) := by
  induction l with
  | nil => intro b _ _ _; rfl
  | cons x xs ih =>
    intro b hb hfg hP
    rw [List.foldlM_cons, hfg x b (by simp) hb, List.foldl_cons]
    exact ih (g b x) (hP x b (by simp) hb) (fun y b' hy hb' => hfg y b' (by simp [hy]) hb')
      (fun y b' hy hb' => hP y b' (by simp [hy]) hb')

theorem nhJC_eq (ctx : Hs1Ctx) (i m0 m1 m2 m3 : Nat) (nh : List Nat) (j : Nat)
    (h1 : i + j * 4 + 8 ≤ ctx.nhKey.length) (h2 : j + 1 < nh.length) :
    nhJC ctx i m0 m1 m2 m3 nh j = some (nhJ ctx i m0 m1 m2 m3 nh j) :=
  if_pos ⟨h1, h2⟩

theorem nhChunkC_eq (ctx : Hs1Ctx) (i : Nat) (rest nh : List Nat)
    (hkey : ctx.nhKey.length = 36) (hi : i ≤ 12) (hnh : nh.length = 6)
    (hrest : 15 < rest.length) :
    nhChunkC ctx i rest nh = some (nhChunk ctx i rest nh) := by
  unfold nhChunkC nhChunk
  rw [if_pos hrest]
  refine foldlM_eq_foldl (fun l => l.length = 6) _ _ _ nh hnh ?_ ?_
  · intro j b' hj hb'
    have hj' : j = 0 ∨ j = 2 ∨ j = 4 := by simpa [jVals] using hj
    exact nhJC_eq _ _ _ _ _ _ _ _ (by omega) (by omega)
  · intro j b' _ hb'
    rw [length_nhJ]
    exact hb'

theorem nhBlockAuxC_eq (ctx : Hs1Ctx) (ivs : List Nat) :
    ∀ rest nh, ctx.nhKey.length = 36 → nh.length = 6 → (∀ x ∈ ivs, x ≤ 12) →
      16 * ivs.length ≤ rest.length →
      nhBlockAuxC ctx ivs rest nh = some (nhBlockAux ctx ivs rest nh) := by
  induction ivs with
  | nil => intro rest nh _ _ _ _; rfl
  | cons i is ih =>
    intro rest nh hkey hnh hmem hlen
    rw [nhBlockAuxC, nhBlockAux,
      nhChunkC_eq _ _ _ _ hkey (hmem i (by simp)) hnh
        (by simp only [List.length_cons] at hlen; omega),
      Option.some_bind]
    exact ih _ _ hkey (by rw [length_nhChunk]; exact hnh) (fun x hx => hmem x (by simp [hx]))
      (by simp only [List.length_drop, List.length_cons] at *; omega)

theorem polyAccC_eq (ctx : Hs1Ctx) (nh accum : List Nat) (j : Nat)
    (h1 : j + 1 < accum.length) (h2 : j + 1 < nh.length) (h3 : j + 1 < ctx.polyKey.length) :
    polyAccC ctx nh accum j = some (polyAcc ctx nh accum j) :=
  if_pos ⟨h1, h2, h3⟩

theorem polyAccAllC_eq (ctx : Hs1Ctx) (nh accum : List Nat)
    (hpoly : ctx.polyKey.length = 6) (hnh : nh.length = 6) (haccum : accum.length = 6) :
    polyAccAllC ctx nh accum = some (polyAccAll ctx nh accum) := by
  unfold polyAccAllC polyAccAll
  refine foldlM_eq_foldl (fun l => l.length = 6) _ _ _ accum haccum ?_ ?_
  · intro j b' hj hb'
    have hj' : j = 0 ∨ j = 2 ∨ j = 4 := by simpa [jVals] using hj
    exact polyAccC_eq _ _ _ _ (by omega) (by omega) (by omega)
  · intro j b' _ hb'
    rw [length_polyAcc]
    exact hb'

theorem hashStepCF_eq (ctx : Hs1Ctx) :
    ∀ fuel msg accum, ctx.nhKey.length = 36 → ctx.polyKey.length = 6 →
      accum.length = 6 → 64 ∣ msg.length →
      hashStepCF ctx fuel msg accum = some (hashStepF ctx fuel msg accum) := by
  intro fuel
  induction fuel with
  | zero => intro msg accum _ _ _ _; rfl
  | succ n ih =>
    intro msg accum hkey hpoly haccum hdvd
    rw [hashStepF, hashStepCF]
    by_cases h0 : msg.length = 0
    · rw [if_pos h0, if_pos h0]
    · have h64 : 64 ≤ msg.length := Nat.le_of_dvd (by omega) hdvd
      rw [if_neg h0, if_neg h0,
        nhBlockAuxC_eq _ _ _ _ hkey (by simp [hs1HashRounds]) (by intro x hx; fin_cases hx <;> omega)
          (by simp only [List.length_cons, List.length_nil]; omega),
        Option.some_bind,
        polyAccAllC_eq _ _ _ hpoly (by rw [length_nhBlockAux]; simp [hs1HashRounds]) haccum, Option.some_bind]
      exact ih _ _ hkey hpoly (by rw [length_polyAccAll]; exact haccum)
        (by simp only [List.length_drop]; exact (Nat.dvd_sub' hdvd (by norm_num)))

theorem hashStepC_eq (ctx : Hs1Ctx) :
    ∀ fuel msg accum, msg.length ≤ fuel → ctx.nhKey.length = 36 → ctx.polyKey.length = 6 →
      accum.length = 6 → 64 ∣ msg.length →
      hashStepC ctx msg accum = some (hashStep ctx msg accum) :=
  fun _ msg accum _ hkey hpoly haccum hdvd =>
    hashStepCF_eq ctx msg.length msg accum hkey hpoly haccum hdvd

theorem hashFinOutC_eq (ctx : Hs1Ctx) (accum result : List Nat)
    (hasu : ctx.asuKey.length = 18) (haccum : accum.length = 6) (hres : 24 ≤ result.length) :
    hashFinOutC ctx accum result = some (hashFinOut ctx accum result) := by
  unfold hashFinOutC hashFinOut
  refine foldlM_eq_foldl (fun l => l.length = result.length) _ _ _ result rfl ?_ ?_
  · intro j res hj hres'
    have hj' : j = 0 ∨ j = 2 ∨ j = 4 := by simpa [jVals] using hj
    rw [if_pos (by omega), asuHashC, if_pos (show 2 < (ctx.asuKey.drop (3 * j)).length by
        simp only [List.length_drop]; omega), Option.some_bind,
      asuHashC, if_pos (show 2 < (ctx.asuKey.drop (3 * j + 3)).length by
        simp only [List.length_drop]; omega), Option.some_bind,
      putU32AtC, if_pos (by omega), Option.some_bind,
      putU32AtC, if_pos (by rw [length_putU32At]; omega)]
  · intro j res _ hres'
    rw [length_putU32At, length_putU32At]
    exact hres'

theorem hashFinalizeC_eq (ctx : Hs1Ctx) (msg accum result : List Nat)
    (hkey : ctx.nhKey.length = 36) (hpoly : ctx.polyKey.length = 6)
    (hasu : ctx.asuKey.length = 18) (haccum : accum.length = 6) (hres : 24 ≤ result.length)
    (hmsg : msg.length ≤ 64) (hdvd : 16 ∣ msg.length) :
    hashFinalizeC ctx msg accum result = some (hashFinalize ctx msg accum result) := by
  unfold hashFinalizeC hashFinalize
  by_cases h0 : msg.length = 0
  · rw [if_pos h0, if_pos h0, Option.some_bind, hashFinOutC_eq _ _ _ hasu haccum hres]
  · have h16 : 16 ≤ msg.length := Nat.le_of_dvd (by omega) hdvd
    have hiv : (iVals msg.length).length = msg.length / 16 := by
      simp only [iVals, List.length_map, List.length_range]
      omega
    rw [if_neg h0, if_neg h0,
      nhBlockAuxC_eq _ _ _ _ hkey (by simp [hs1HashRounds])
        (by
          intro x hx
          simp only [iVals, List.mem_map, List.mem_range] at hx
          obtain ⟨t, ht, rfl⟩ := hx
          omega)
        (by rw [hiv]; omega),
      Option.some_bind,
      polyAccAllC_eq _ _ _ hpoly (by rw [length_nhBlockAux]; simp [hs1HashRounds]) haccum, Option.some_bind,
      hashFinOutC_eq _ _ _ hasu (by rw [length_polyAccAll]; exact haccum) hres]

/-! ## Totality of the hash call sites (claim C10) -/

theorem length_pad64 (tail : List Nat) : (pad64 tail).length = 64 := by
  unfold pad64
  rw [length_goCopyAt]
  rfl

theorem length_sivLenBufBytes (x y : Nat) : (sivLenBufBytes x y).length = 16 := rfl

theorem length_hashStep' (ctx : Hs1Ctx) (msg accum : List Nat) :
    (hashStep ctx msg accum).length = accum.length :=
  length_hashStep ctx msg.length msg accum (Nat.le_refl _)

theorem length_sivHashAD (ctx : AeadCtx) (accum a : List Nat) :
    (sivHashAD ctx accum a).length = accum.length := by
  unfold sivHashAD
  by_cases h : 64 * (a.length / 64) < a.length
  · rw [if_pos h, length_hashStep', length_hashStep']
  · rw [if_neg h, length_hashStep']

theorem length_sivGenAccum (ctx : AeadCtx) (accum m lenBuf : List Nat) :
    (sivGenAccum ctx accum m lenBuf).length = 32 := by
  unfold sivGenAccum
  by_cases h : tailPadLen m.length = hs1NHLen
  · rw [if_pos h, hashFinalize_length]
    rfl
  · rw [if_neg h, hashFinalize_length]
    rfl

theorem length_xorCopyChaChaKey (dst src : List Nat) (hd : dst.length = 32)
    (hs : src.length = 32) : (xorCopyChaChaKey dst src).length = 32 := by
  simp only [xorCopyChaChaKey, List.length_append, List.length_zipWith, List.length_take,
    length_goCopyAt, List.length_drop]
  omega

theorem chacha20_eq (key nonce input out : List Nat) (counter : Nat) (hk : key.length = 32)
    (hn : nonce.length = 12) :
    chacha20 key nonce input out counter = some (chachaRun key nonce input out counter) :=
  if_pos ⟨hk, hn⟩

theorem sivGenerate_eq (ctx : AeadCtx) (accum m lenBuf n sivOut : List Nat)
    (hwf : ctx.wf) (hn : n.length = 12) :
    sivGenerate ctx accum m lenBuf n sivOut =
      some (chachaRun (xorCopyChaChaKey (sivGenAccum ctx accum m lenBuf) ctx.chachaKey) n
        (List.replicate hs1SIVLen 0) sivOut 0) :=
  chacha20_eq _ _ _ _ _
    (length_xorCopyChaChaKey _ _ (length_sivGenAccum ..) hwf.1) hn

theorem encrypt_isSome (ctx : AeadCtx) (m a n c0 : List Nat) (hwf : ctx.wf)
    (hn : n.length = 12) : (encrypt ctx m a n c0).isSome := by
  unfold encrypt
  dsimp only
  rw [sivGenerate_eq _ _ _ _ _ _ hwf hn, Option.some_bind,
    chacha20_eq _ _ _ _ _
      (length_xorCopyChaChaKey _ _ (by rw [hashFinalize_length]; rfl) hwf.1) hn]
  rfl

theorem decrypt_isSome (ctx : AeadCtx) (c a n m0 : List Nat) (hwf : ctx.wf) :
    (decrypt ctx c a n m0).isSome := by
  unfold decrypt
  by_cases h : c.length < hs1SIVLen
  · rw [if_pos h]
    rfl
  · rw [if_neg h]
    dsimp only
    have hnonce : (goCopyAt (List.replicate NonceSize 0) 0 n).length = 12 := by
      rw [length_goCopyAt]
      rfl
    rw [chacha20_eq _ _ _ _ _
        (length_xorCopyChaChaKey _ _ (by rw [hashFinalize_length]; rfl) hwf.1) hnonce,
      Option.some_bind,
      sivGenerate_eq _ _ _ _ _ _ hwf hnonce]
    rfl

theorem length_sivGenTailBuf (tail lenBuf : List Nat) (htail : tail.length ≤ 63)
    (hmbp : 16 * ((tail.length + 15) / 16) ≠ 64) :
    (sivGenTailBuf tail lenBuf).length = 16 * ((tail.length + 15) / 16) + 16 := by
  unfold sivGenTailBuf
  rw [List.length_take, length_goCopyAt, length_pad64]
  omega

/-- C10: every hash call Seal and Open make is in bounds.  The five groups of
conjuncts enumerate the `hashStep`/`hashFinalize` call sites of `sivHashAD`,
`sivGenerate`, `encrypt` and `decrypt` with the argument shapes they use: the
bounds-checked variants succeed and agree with the unchecked embedding, every
`hashStep` input is a 64-multiple and every `hashFinalize` input is a
16-multiple of at most 64 bytes; consequently `encrypt` and `decrypt` as a
whole are total. -/
theorem hash_call_sites_total (ctx : AeadCtx) (a m siv accum n c0 c ad m0 : List Nat)
    (hwf : ctx.wf) (haccum : accum.length = 6) (hsiv : siv.length = 32) :
    (64 ∣ (a.take (64 * (a.length / 64))).length ∧
      hashStepC ctx.hashCtx (a.take (64 * (a.length / 64))) accum =
        some (hashStep ctx.hashCtx (a.take (64 * (a.length / 64))) accum)) ∧
    ((pad64 (a.drop (64 * (a.length / 64)))).length = 64 ∧
      hashStepC ctx.hashCtx (pad64 (a.drop (64 * (a.length / 64)))) accum =
        some (hashStep ctx.hashCtx (pad64 (a.drop (64 * (a.length / 64)))) accum)) ∧
    ((sivLenBufBytes a.length m.length).length = 16 ∧
      hashFinalizeC ctx.hashCtx (sivLenBufBytes a.length m.length) accum
          (List.replicate 32 0) =
        some (hashFinalize ctx.hashCtx (sivLenBufBytes a.length m.length) accum
          (List.replicate 32 0))) ∧
    (tailPadLen m.length ≠ 64 →
      16 ∣ (sivGenTailBuf (m.drop (64 * (m.length / 64)))
          (sivLenBufBytes a.length m.length)).length ∧
      (sivGenTailBuf (m.drop (64 * (m.length / 64)))
          (sivLenBufBytes a.length m.length)).length ≤ 64 ∧
      hashFinalizeC ctx.hashCtx
          (sivGenTailBuf (m.drop (64 * (m.length / 64))) (sivLenBufBytes a.length m.length))
          accum (List.replicate 32 0) =
        some (hashFinalize ctx.hashCtx
          (sivGenTailBuf (m.drop (64 * (m.length / 64))) (sivLenBufBytes a.length m.length))
          accum (List.replicate 32 0))) ∧
    (hashFinalizeC ctx.hashCtx siv accum (List.replicate 32 0) =
      some (hashFinalize ctx.hashCtx siv accum (List.replicate 32 0))) ∧
    (n.length = 12 → (encrypt ctx m a n c0).isSome) ∧
    (decrypt ctx c ad n m0).isSome := by
  obtain ⟨hck, hkey, hpoly, hasu⟩ : ctx.chachaKey.length = 32 ∧ ctx.hashCtx.nhKey.length = 36 ∧
      ctx.hashCtx.polyKey.length = 6 ∧ ctx.hashCtx.asuKey.length = 18 :=
    ⟨hwf.1, hwf.2.1, hwf.2.2.1, hwf.2.2.2⟩
  have htake : (a.take (64 * (a.length / 64))).length = 64 * (a.length / 64) := by
    rw [List.length_take]
    omega
  refine ⟨⟨?_, ?_⟩, ⟨length_pad64 _, ?_⟩, ⟨rfl, ?_⟩, ?_, ?_, encrypt_isSome _ _ _ _ _ hwf,
    decrypt_isSome _ _ _ _ _ hwf⟩
  · rw [htake]
    exact Dvd.intro _ rfl
  · exact hashStepC_eq _ _ _ _ (Nat.le_refl _) hkey hpoly haccum (by rw [htake]; exact ⟨_, rfl⟩)
  · exact hashStepC_eq _ _ _ _ (Nat.le_refl _) hkey hpoly haccum (by rw [length_pad64])
  · exact hashFinalizeC_eq _ _ _ _ hkey hpoly hasu haccum (by simp)
      (by rw [length_sivLenBufBytes]; omega) (by rw [length_sivLenBufBytes])
  · intro hne
    have htl : (m.drop (64 * (m.length / 64))).length ≤ 63 := by
      rw [List.length_drop]
      omega
    have hmbp : 16 * (((m.drop (64 * (m.length / 64))).length + 15) / 16) ≠ 64 := by
      rw [List.length_drop]
      simp only [tailPadLen] at hne
      omega
    have hlen := length_sivGenTailBuf (m.drop (64 * (m.length / 64)))
      (sivLenBufBytes a.length m.length) htl hmbp
    refine ⟨by rw [hlen]; omega, by rw [hlen]; omega, ?_⟩
    exact hashFinalizeC_eq _ _ _ _ hkey hpoly hasu haccum (by simp) (by rw [hlen]; omega)
      (by rw [hlen]; omega)
  · exact hashFinalizeC_eq _ _ _ _ hkey hpoly hasu haccum (by simp) (by rw [hsiv]; omega)
      (by rw [hsiv]; norm_num)

/-- Witness for `hash_call_sites_total` at a concrete input. -/
theorem hash_call_sites_total_witness :
    (decrypt ⟨List.replicate 32 0, zeroHashCtx⟩ [] [] [] []).isSome := by
  have h := hash_call_sites_total ⟨List.replicate 32 0, zeroHashCtx⟩ [] [] (List.replicate 32 0)
    (List.replicate 6 1) [] [] [] [] [] (by decide) (by decide) (by decide)
  exact h.2.2.2.2.2.2

/-! ## Byte-level structure of the ChaCha keystream -/

theorem xor_byte_extract (x y r : Nat) :
    (x ^^^ y) / 2 ^ r % 2 ^ 8 = (x / 2 ^ r % 2 ^ 8) ^^^ (y / 2 ^ r % 2 ^ 8) := by
  apply Nat.eq_of_testBit_eq
  intro i
  simp only [← Nat.shiftRight_eq_div_pow, Nat.testBit_mod_two_pow, Nat.testBit_shiftRight,
    Nat.testBit_xor]
  by_cases h : i < 8 <;> simp [h]

theorem leBytes32_xor (x y : Nat) :
    leBytes32 (x ^^^ y) = List.zipWith Nat.xor (leBytes32 x) (leBytes32 y) := by
  have h0 := xor_byte_extract x y 0
  have h8 := xor_byte_extract x y 8
  have h16 := xor_byte_extract x y 16
  have h24 := xor_byte_extract x y 24
  simp only [pow_zero, Nat.div_one] at h0
  simp only [leBytes32, List.zipWith_cons_cons, List.zipWith_nil_left]
  rw [h0, h8, h16, h24]
  rfl

theorem leBytes32_leU32 (b0 b1 b2 b3 : Nat) (h0 : b0 < 256) (h1 : b1 < 256) (h2 : b2 < 256)
    (h3 : b3 < 256) :
    leBytes32 (b0 + b1 * 2 ^ 8 + b2 * 2 ^ 16 + b3 * 2 ^ 24) = [b0, b1, b2, b3] := by
  have e0 : (b0 + b1 * 2 ^ 8 + b2 * 2 ^ 16 + b3 * 2 ^ 24) % 2 ^ 8 = b0 := by omega
  have e1 : (b0 + b1 * 2 ^ 8 + b2 * 2 ^ 16 + b3 * 2 ^ 24) / 2 ^ 8 % 2 ^ 8 = b1 := by omega
  have e2 : (b0 + b1 * 2 ^ 8 + b2 * 2 ^ 16 + b3 * 2 ^ 24) / 2 ^ 16 % 2 ^ 8 = b2 := by omega
  have e3 : (b0 + b1 * 2 ^ 8 + b2 * 2 ^ 16 + b3 * 2 ^ 24) / 2 ^ 24 % 2 ^ 8 = b3 := by omega
  simp only [leBytes32, e0, e1, e2, e3]

theorem leU32At_cons4 (b0 b1 b2 b3 : Nat) (rest : List Nat) :
    leU32At (b0 :: b1 :: b2 :: b3 :: rest) 0 = b0 + b1 * 2 ^ 8 + b2 * 2 ^ 16 + b3 * 2 ^ 24 := by
  simp [leU32At]

theorem flatMap_zipWith_leWords (ws : List Nat) :
    ∀ bs : List Nat, bs.length = 4 * ws.length → (∀ b ∈ bs, b < 256) →
      (List.zipWith Nat.xor (leWords ws.length bs) ws).flatMap leBytes32 =
        List.zipWith Nat.xor bs (ws.flatMap leBytes32) := by
  induction ws with
  | nil =>
    intro bs hlen _
    simp only [List.length_nil, Nat.mul_zero, List.length_eq_zero] at hlen
    subst hlen
    rfl
  | cons w ws ih =>
    intro bs hlen hb
    rcases bs with _ | ⟨b0, bs⟩
    · simp at hlen
    rcases bs with _ | ⟨b1, bs⟩
    · simp at hlen; omega
    rcases bs with _ | ⟨b2, bs⟩
    · simp at hlen; omega
    rcases bs with _ | ⟨b3, bs'⟩
    · simp at hlen; omega
    have hlen' : bs'.length = 4 * ws.length := by
      simp only [List.length_cons] at hlen
      omega
    have hb' : ∀ b ∈ bs', b < 256 := fun b hbm => hb b (by simp [hbm])
    have hx : leBytes32 (Nat.xor (leU32At (b0 :: b1 :: b2 :: b3 :: bs') 0) w) =
        [Nat.xor b0 (w % 2 ^ 8), Nat.xor b1 (w / 2 ^ 8 % 2 ^ 8), Nat.xor b2 (w / 2 ^ 16 % 2 ^ 8),
          Nat.xor b3 (w / 2 ^ 24 % 2 ^ 8)] := by
      rw [show Nat.xor (leU32At (b0 :: b1 :: b2 :: b3 :: bs') 0) w =
          leU32At (b0 :: b1 :: b2 :: b3 :: bs') 0 ^^^ w from rfl,
        leU32At_cons4, leBytes32_xor,
        leBytes32_leU32 _ _ _ _ (hb b0 (by simp)) (hb b1 (by simp)) (hb b2 (by simp))
          (hb b3 (by simp))]
      rfl
    have hdrop : (b0 :: b1 :: b2 :: b3 :: bs').drop 4 = bs' := rfl
    simp only [List.length_cons, leWords, hdrop, List.zipWith_cons_cons, List.flatMap_cons, hx,
      ih bs' hlen' hb']
    rfl

theorem leU32At_drop4 (bs : List Nat) (k : Nat) :
    leU32At (bs.drop 4) k = leU32At bs (4 + k) := by
  simp only [leU32At, List.getD_eq_getElem?_getD, List.getElem?_drop]
  ring_nf

theorem leWords_eq_map (n : Nat) : ∀ bs : List Nat,
    leWords n bs = (List.range n).map fun i => leU32At bs (4 * i) := by
  induction n with
  | zero => intro bs; rfl
  | succ k ih =>
    intro bs
    rw [leWords, ih, List.range_succ_eq_map, List.map_cons, List.map_map]
    congr 1
    apply List.map_congr_left
    intro i _
    simp only [Function.comp_apply, leU32At_drop4]
    congr 1
    omega

theorem blockWords_eq (blk : List Nat) : blockWords blk = leWords 16 blk := by
  rw [blockWords, leWords_eq_map]

theorem chachaBlockOut_eq (s : ChachaState) (blk : List Nat) (hlen : blk.length = 64)
    (hb : ∀ b ∈ blk, b < 256) :
    chachaBlockOut s blk = List.zipWith Nat.xor blk (chachaKsBlock s) := by
  unfold chachaBlockOut chachaKsBlock
  rw [blockWords_eq]
  exact flatMap_zipWith_leWords (chachaKsWords (chachaRound20 s) s) blk (by rw [hlen]; rfl) hb

theorem length_chachaKsBlock (s : ChachaState) : (chachaKsBlock s).length = 64 := rfl

theorem length_chachaBlockOut (s : ChachaState) (blk : List Nat) :
    (chachaBlockOut s blk).length = 64 := rfl

theorem length_chachaKsBlocks : ∀ (n : Nat) (s : ChachaState),
    (chachaKsBlocks s n).length = 64 * n := by
  intro n
  induction n with
  | zero => intro s; rfl
  | succ k ih =>
    intro s
    rw [chachaKsBlocks, List.length_append, length_chachaKsBlock, ih]
    ring

theorem chachaKsBlock_lt (s : ChachaState) : ∀ b ∈ chachaKsBlock s, b < 256 := by
  intro b hb
  unfold chachaKsBlock at hb
  rw [List.mem_flatMap] at hb
  obtain ⟨w, _, hbw⟩ := hb
  simp only [leBytes32, List.mem_cons, List.not_mem_nil, or_false] at hbw
  rcases hbw with rfl | rfl | rfl | rfl <;> exact Nat.mod_lt _ (by norm_num)

theorem chachaKsBlocks_lt (s : ChachaState) (n : Nat) :
    ∀ b ∈ chachaKsBlocks s n, b < 256 := by
  induction n generalizing s with
  | zero => intro b hb; simp [chachaKsBlocks] at hb
  | succ k ih =>
    intro b hb
    rw [chachaKsBlocks, List.mem_append] at hb
    rcases hb with hb | hb
    · exact chachaKsBlock_lt s b hb
    · exact ih (bumpCounter s) b hb

theorem chachaBlocksRef_spec :
    ∀ (nr : Nat) (s : ChachaState) (input out : List Nat), 64 * nr ≤ input.length →
      (∀ b ∈ input, b < 256) →
      chachaBlocksRef s input out nr =
        (List.zipWith Nat.xor (input.take (64 * nr)) (chachaKsBlocks s nr) ++
            out.drop (64 * nr),
          Nat.iterate bumpCounter nr s) := by
  intro nr
  induction nr with
  | zero => intro s input out _ _; rfl
  | succ k ih =>
    intro s input out hlen hb
    have htake : (input.take 64).length = 64 := by
      rw [List.length_take]
      omega
    rw [chachaBlocksRef,
      ih (bumpCounter s) (input.drop 64) (out.drop 64)
        (by rw [List.length_drop]; omega) (fun b hbm => hb b (List.mem_of_mem_drop hbm)),
      chachaBlockOut_eq s (input.take 64) htake (fun b hbm => hb b (List.mem_of_mem_take hbm))]
    refine Prod.ext ?_ ?_
    · show List.zipWith Nat.xor (input.take 64) (chachaKsBlock s) ++
        (List.zipWith Nat.xor ((input.drop 64).take (64 * k))
            (chachaKsBlocks (bumpCounter s) k) ++ (out.drop 64).drop (64 * k)) =
        List.zipWith Nat.xor (input.take (64 * (k + 1))) (chachaKsBlocks s (k + 1)) ++
          out.drop (64 * (k + 1))
      rw [show 64 * (k + 1) = 64 + 64 * k by ring, List.take_add, chachaKsBlocks,
        List.zipWith_append _ _ _ _ _ (by rw [htake, length_chachaKsBlock]),
        List.drop_drop, List.append_assoc]
    · show Nat.iterate bumpCounter k (bumpCounter s) = Nat.iterate bumpCounter (k + 1) s
      rw [Function.iterate_succ_apply]

theorem chachaKsBlocks_succ_right (s : ChachaState) :
    ∀ n, chachaKsBlocks s (n + 1) =
      chachaKsBlocks s n ++ chachaKsBlock (Nat.iterate bumpCounter n s) := by
  intro n
  induction n generalizing s with
  | zero =>
    show chachaKsBlock s ++ chachaKsBlocks (bumpCounter s) 0 = [] ++ chachaKsBlock s
    simp [chachaKsBlocks]
  | succ k ih =>
    show chachaKsBlock s ++ chachaKsBlocks (bumpCounter s) (k + 1) = _
    rw [ih (bumpCounter s), chachaKsBlocks, List.append_assoc, Function.iterate_succ_apply]

theorem goCopyAt_drop_off (dst : List Nat) (off : Nat) (src : List Nat)
    (h : off ≤ dst.length) :
    (goCopyAt dst off src).drop off =
      src.take (dst.length - off) ++ dst.drop (off + src.length) := by
  unfold goCopyAt
  rw [List.append_assoc, List.drop_left' (by rw [List.length_take]; omega)]

theorem zipWith_split (f : Nat → Nat → Nat) (l l1 l2 : List Nat) (h : l1.length ≤ l.length) :
    List.zipWith f l (l1 ++ l2) =
      List.zipWith f (l.take l1.length) l1 ++ List.zipWith f (l.drop l1.length) l2 := by
  conv_lhs => rw [show l = l.take l1.length ++ l.drop l1.length from
    (List.take_append_drop ..).symm]
  rw [List.zipWith_append _ _ _ _ _ (by rw [List.length_take]; omega)]

theorem chachaXORKeyStreamRef_spec (s : ChachaState) (input out : List Nat)
    (hio : input.length ≤ out.length) (hb : ∀ b ∈ input, b < 256) :
    ((chachaXORKeyStreamRef s input out).1).length = out.length ∧
      ((chachaXORKeyStreamRef s input out).1).take input.length =
        List.zipWith Nat.xor input (chachaKsStream s input.length) ∧
      ((chachaXORKeyStreamRef s input out).1).drop (64 * ((input.length + 63) / 64)) =
        out.drop (64 * ((input.length + 63) / 64)) := by
  have hfb : 64 * (input.length / 64) ≤ input.length := by omega
  have hr1 :
      (if 0 < input.length / 64
        then chachaBlocksRef s input out (input.length / 64) else (out, s)) =
      (List.zipWith Nat.xor (input.take (64 * (input.length / 64)))
          (chachaKsBlocks s (input.length / 64)) ++ out.drop (64 * (input.length / 64)),
        Nat.iterate bumpCounter (input.length / 64) s) := by
    by_cases hfb0 : 0 < input.length / 64
    · rw [if_pos hfb0, chachaBlocksRef_spec _ s input out hfb hb]
    · have h0 : input.length / 64 = 0 := by omega
      rw [if_neg hfb0, h0]
      simp [chachaKsBlocks]
  have hzipAlen : (List.zipWith Nat.xor (input.take (64 * (input.length / 64)))
      (chachaKsBlocks s (input.length / 64))).length = 64 * (input.length / 64) := by
    rw [List.length_zipWith, List.length_take, length_chachaKsBlocks]
    omega
  unfold chachaXORKeyStreamRef
  rw [show chachaBlockSize = 64 from rfl]
  dsimp only
  rw [hr1]
  by_cases hrem : 0 < input.length - input.length / 64 * 64
  · -- partial final block
    have hremlt : input.length - 64 * (input.length / 64) ≤ 63 := by omega
    have hceil : (input.length + 63) / 64 = input.length / 64 + 1 := by omega
    have hdroplen : (input.drop (input.length / 64 * 64)).length =
        input.length - 64 * (input.length / 64) := by
      rw [List.length_drop]
      omega
    have hscratch : goCopyAt (List.replicate 64 0) 0 (input.drop (input.length / 64 * 64)) =
        input.drop (input.length / 64 * 64) ++
          (List.replicate 64 0).drop (input.length - 64 * (input.length / 64)) := by
      rw [goCopyAt_zero_of_le _ _ (by rw [hdroplen, List.length_replicate]; omega), hdroplen]
    have hscratchlen : (input.drop (input.length / 64 * 64) ++
        (List.replicate 64 0).drop (input.length - 64 * (input.length / 64))).length = 64 := by
      rw [List.length_append, hdroplen, List.length_drop, List.length_replicate]
      omega
    have hscratchb : ∀ b ∈ input.drop (input.length / 64 * 64) ++
        (List.replicate 64 0).drop (input.length - 64 * (input.length / 64)), b < 256 := by
      intro b hbm
      rw [List.mem_append] at hbm
      rcases hbm with hbm | hbm
      · exact hb b (List.mem_of_mem_drop hbm)
      · have := List.eq_of_mem_replicate (List.mem_of_mem_drop hbm)
        omega
    rw [if_pos hrem, hscratch,
      chachaBlocksRef_spec 1 _ _ _ (by rw [hscratchlen]) hscratchb]
    have hpout : List.zipWith Nat.xor
        ((input.drop (input.length / 64 * 64) ++
          (List.replicate 64 0).drop (input.length - 64 * (input.length / 64))).take (64 * 1))
        (chachaKsBlocks (Nat.iterate bumpCounter (input.length / 64) s) 1) ++
        (input.drop (input.length / 64 * 64) ++
          (List.replicate 64 0).drop (input.length - 64 * (input.length / 64))).drop (64 * 1) =
        List.zipWith Nat.xor
          (input.drop (input.length / 64 * 64) ++
            (List.replicate 64 0).drop (input.length - 64 * (input.length / 64)))
          (chachaKsBlock (Nat.iterate bumpCounter (input.length / 64) s)) := by
      have htk : (input.drop (input.length / 64 * 64) ++
          (List.replicate 64 0).drop (input.length - 64 * (input.length / 64))).take 64 =
          input.drop (input.length / 64 * 64) ++
            (List.replicate 64 0).drop (input.length - 64 * (input.length / 64)) :=
        List.take_of_length_le hscratchlen.le
      have hdn : (input.drop (input.length / 64 * 64) ++
          (List.replicate 64 0).drop (input.length - 64 * (input.length / 64))).drop 64 =
          [] := List.drop_eq_nil_of_le hscratchlen.le
      have hks1 : ∀ t : ChachaState, chachaKsBlocks t 1 = chachaKsBlock t := by
        intro t
        show chachaKsBlock t ++ chachaKsBlocks (bumpCounter t) 0 = _
        simp [chachaKsBlocks]
      rw [show (64 : Nat) * 1 = 64 from rfl, htk, hdn, List.append_nil, hks1]
    rw [hpout]
    dsimp only
    refine ⟨?_, ?_, ?_⟩
    · rw [length_goCopyAt, List.length_append, hzipAlen, List.length_drop]
      omega
    · -- take input.length of the copied result
      have hbaselen : (List.zipWith Nat.xor (input.take (64 * (input.length / 64)))
          (chachaKsBlocks s (input.length / 64)) ++
          out.drop (64 * (input.length / 64))).length = out.length := by
        rw [List.length_append, hzipAlen, List.length_drop]
        omega
      have hlen2 : (List.zipWith Nat.xor
          (input.drop (input.length / 64 * 64) ++
            (List.replicate 64 0).drop (input.length - 64 * (input.length / 64)))
          (chachaKsBlock (Nat.iterate bumpCounter (input.length / 64) s))).length = 64 := by
        rw [List.length_zipWith, hscratchlen, length_chachaKsBlock]
        omega
      have hsplitL : ∀ (l : List Nat) (a b : Nat), a + b = input.length →
          l.take input.length = l.take a ++ (l.drop a).take b := by
        intro l a b hab
        rw [show input.length = a + b from hab.symm, List.take_add]
      rw [hsplitL _ (input.length / 64 * 64) (input.length - 64 * (input.length / 64))
          (by omega),
        goCopyAt_take_of_le _ _ _ _ (by rw [hbaselen]; omega) (le_refl _),
        List.take_left' (by rw [hzipAlen]; omega),
        goCopyAt_drop_off _ _ _ (by rw [hbaselen]; omega), hbaselen,
        List.take_append_eq_append_take, List.length_take, hlen2,
        List.take_take, min_eq_left (by omega),
        show input.length - 64 * (input.length / 64) -
          min (out.length - input.length / 64 * 64) 64 = 0 by omega,
        List.take_zero, List.append_nil, List.take_zipWith, List.take_left' hdroplen]
      -- right-hand side
      rw [chachaKsStream, hceil, chachaKsBlocks_succ_right,
        List.take_append_eq_append_take,
        @List.take_of_length_le Nat input.length (chachaKsBlocks s (input.length / 64))
          (by rw [length_chachaKsBlocks]; omega),
        length_chachaKsBlocks,
        zipWith_split Nat.xor input _ _ (by rw [length_chachaKsBlocks]; omega),
        length_chachaKsBlocks, Nat.mul_comm (input.length / 64) 64]
    · -- frame: bytes beyond the processed blocks are unchanged
      rw [hceil]
      have hk : 64 * (input.length / 64 + 1) = 64 * (input.length / 64) + 64 := by ring
      rw [hk, goCopyAt_drop_of_le _ _ _ _
          (by rw [List.length_append, hzipAlen, List.length_drop]; omega)
          (by
            rw [List.length_zipWith, hscratchlen, length_chachaKsBlock]
            omega),
        List.drop_append_eq_append_drop, hzipAlen,
        List.drop_eq_nil_of_le (by rw [hzipAlen]; omega), List.nil_append, List.drop_drop]
      congr 1
      omega
  · -- no partial block: the input length is a multiple of 64
    have hmul : 64 * (input.length / 64) = input.length := by omega
    have hceil : (input.length + 63) / 64 = input.length / 64 := by omega
    rw [if_neg hrem]
    refine ⟨?_, ?_, ?_⟩
    · rw [List.length_append, hzipAlen, List.length_drop]
      omega
    · rw [List.take_left' (by rw [hzipAlen]; exact hmul), chachaKsStream, hceil,
        List.take_of_length_le (by omega),
        @List.take_of_length_le Nat input.length (chachaKsBlocks s (input.length / 64))
          (by rw [length_chachaKsBlocks]; omega)]
    · rw [hceil, List.drop_append_eq_append_drop, hzipAlen,
        List.drop_eq_nil_of_le (by rw [hzipAlen]), List.nil_append, List.drop_drop]
      congr 1
      omega

theorem chachaBlocksRefC_eq :
    ∀ (n : Nat) (s : ChachaState) (input out : List Nat),
      64 * n ≤ input.length → 64 * n ≤ out.length →
      chachaBlocksRefC s input out n = some (chachaBlocksRef s input out n) := by
  intro n
  induction n with
  | zero => intro s input out _ _; rfl
  | succ k ih =>
    intro s input out hin hout
    rw [chachaBlocksRefC, if_pos ⟨by omega, by omega⟩,
      ih _ _ _ (by rw [List.length_drop]; omega) (by rw [List.length_drop]; omega)]
    rfl

theorem chachaXORKeyStreamRefC_eq (s : ChachaState) (input out : List Nat)
    (hio : input.length ≤ out.length) :
    chachaXORKeyStreamRefC s input out = some (chachaXORKeyStreamRef s input out) := by
  unfold chachaXORKeyStreamRefC chachaXORKeyStreamRef
  rw [show chachaBlockSize = 64 from rfl]
  dsimp only
  have hr1 :
      (if 0 < input.length / 64 then chachaBlocksRefC s input out (input.length / 64)
        else some (out, s)) =
      some (if 0 < input.length / 64 then chachaBlocksRef s input out (input.length / 64)
        else (out, s)) := by
    by_cases h1 : 0 < input.length / 64
    · rw [if_pos h1, if_pos h1, chachaBlocksRefC_eq _ _ _ _ (by omega) (by omega)]
    · rw [if_neg h1, if_neg h1]
  rw [hr1, Option.some_bind]
  by_cases h2 : 0 < input.length - input.length / 64 * 64
  · rw [if_pos h2, if_pos h2,
      chachaBlocksRefC_eq 1 _ _ _
        (by rw [length_goCopyAt, List.length_replicate])
        (by rw [length_goCopyAt, List.length_replicate]),
      Option.map_some']
  · rw [if_neg h2, if_neg h2]

/-- C8: for a 32-byte key, 12-byte nonce, any counter and buffers with
`len in ≤ len out` (the invariant `chacha20` establishes), the reference
keystream XOR performs no out-of-bounds access (the bounds-checked embedding
succeeds and agrees with the unchecked one), the result keeps `out`'s length,
its `len in` prefix is the input XORed with the keystream, and every byte of
`out` beyond the processed whole-block region — in particular everything past
the scratch-block copy — is unchanged. -/
theorem chachaXORKeyStream_partial_block_safe
    (key nonce input out : List Nat) (counter : Nat)
    (_hk : key.length = KeySize) (_hn : nonce.length = NonceSize)
    (hio : input.length ≤ out.length) (hb : ∀ b ∈ input, b < 256) :
    chachaXORKeyStreamRefC (chachaInitState key nonce counter) input out =
      some (chachaXORKeyStreamRef (chachaInitState key nonce counter) input out) ∧
    (chachaXORKeyStreamRef (chachaInitState key nonce counter) input out).1.length
        = out.length ∧
    (chachaXORKeyStreamRef (chachaInitState key nonce counter) input out).1.take input.length
        = List.zipWith Nat.xor input (chachaKeystreamBytes key nonce counter input.length) ∧
    (chachaXORKeyStreamRef (chachaInitState key nonce counter) input out).1.drop
        (64 * ((input.length + 63) / 64))
        = out.drop (64 * ((input.length + 63) / 64)) := by
  refine ⟨chachaXORKeyStreamRefC_eq _ _ _ hio, ?_⟩
  have h := chachaXORKeyStreamRef_spec (chachaInitState key nonce counter) input out hio hb
  exact ⟨h.1, h.2.1, h.2.2⟩

theorem chachaXORKeyStream_partial_block_safe_witness :
    chachaXORKeyStreamRefC
        (chachaInitState (List.replicate 32 7) (List.replicate 12 3) 0)
        [1, 2, 3, 4, 5] (List.replicate 70 9) =
      some (chachaXORKeyStreamRef
        (chachaInitState (List.replicate 32 7) (List.replicate 12 3) 0)
        [1, 2, 3, 4, 5] (List.replicate 70 9)) ∧
    (chachaXORKeyStreamRef (chachaInitState (List.replicate 32 7) (List.replicate 12 3) 0)
        [1, 2, 3, 4, 5] (List.replicate 70 9)).1.length = (List.replicate 70 9 : List Nat).length ∧
    (chachaXORKeyStreamRef (chachaInitState (List.replicate 32 7) (List.replicate 12 3) 0)
        [1, 2, 3, 4, 5] (List.replicate 70 9)).1.take ([1, 2, 3, 4, 5] : List Nat).length
        = List.zipWith Nat.xor [1, 2, 3, 4, 5]
            (chachaKeystreamBytes (List.replicate 32 7) (List.replicate 12 3) 0
              ([1, 2, 3, 4, 5] : List Nat).length) ∧
    (chachaXORKeyStreamRef (chachaInitState (List.replicate 32 7) (List.replicate 12 3) 0)
        [1, 2, 3, 4, 5] (List.replicate 70 9)).1.drop
        (64 * ((([1, 2, 3, 4, 5] : List Nat).length + 63) / 64))
        = (List.replicate 70 9 : List Nat).drop
            (64 * ((([1, 2, 3, 4, 5] : List Nat).length + 63) / 64)) :=
  chachaXORKeyStream_partial_block_safe (List.replicate 32 7) (List.replicate 12 3)
    [1, 2, 3, 4, 5] (List.replicate 70 9) 0 (by decide) (by decide) (by decide) (by decide)

theorem zipWith_xor_zeros (n : Nat) (l : List Nat) :
    List.zipWith Nat.xor (List.replicate n 0) l = l.take n := by
  induction n generalizing l with
  | zero => simp
  | succ k ih =>
    cases l with
    | nil => simp
    | cons a t =>
      show Nat.xor 0 a :: List.zipWith Nat.xor (List.replicate k 0) t = a :: t.take k
      rw [ih t]
      congr 1
      exact Nat.zero_xor a

theorem chachaRun_spec (key nonce input out : List Nat) (counter : Nat)
    (hio : input.length ≤ out.length) (hb : ∀ b ∈ input, b < 256) :
    (chachaRun key nonce input out counter).length = out.length ∧
    (chachaRun key nonce input out counter).take input.length =
      List.zipWith Nat.xor input (chachaKeystreamBytes key nonce counter input.length) ∧
    (chachaRun key nonce input out counter).drop (64 * ((input.length + 63) / 64)) =
      out.drop (64 * ((input.length + 63) / 64)) := by
  unfold chachaRun
  by_cases h0 : input.length = 0
  · obtain rfl : input = [] := List.length_eq_zero.mp h0
    rw [if_pos (show ([] : List Nat).length = 0 from rfl)]
    exact ⟨rfl, rfl, rfl⟩
  · rw [if_neg h0]
    dsimp only
    rw [if_neg (not_lt.mpr hio)]
    exact chachaXORKeyStreamRef_spec _ input out hio hb

theorem chachaRun_zero_input (key nonce : List Nat) (counter len : Nat) :
    chachaRun key nonce (List.replicate len 0) (List.replicate len 0) counter =
      chachaKeystreamBytes key nonce counter len := by
  rcases Nat.eq_zero_or_pos len with rfl | hpos
  · rw [chachaRun, if_pos (show (List.replicate 0 0 : List Nat).length = 0 from rfl)]
    rfl
  · have hspec := chachaRun_spec key nonce (List.replicate len 0) (List.replicate len 0) counter
      (Nat.le_refl _) (fun b hbm => by rw [List.eq_of_mem_replicate hbm]; decide)
    have hlen := hspec.1
    have htake := hspec.2.1
    rw [List.length_replicate] at hlen htake
    rw [← List.take_of_length_le (Nat.le_of_eq hlen), htake, zipWith_xor_zeros]
    exact List.take_of_length_le
      (by rw [chachaKeystreamBytes, chachaKsStream, List.length_take, length_chachaKsBlocks]; omega)

theorem sliceForAppend_grow (input : List Nat) (n : Nat) (hn : 0 < n) :
    sliceForAppend input (n : Int) =
      .ok (input ++ List.replicate n 0, List.replicate n 0) := by
  unfold sliceForAppend
  dsimp only
  rw [if_neg (by omega), if_neg (by omega),
    show (((input.length : Int) + (n : Int)).toNat - input.length) = n by omega]

theorem setup_eq (key : List Nat) (hk : key.length = 32) :
    setup key = some (parseSchedule (chachaRun key (key.length % 256 :: settings.drop 1)
      (List.replicate stateSize 0) (List.replicate stateSize 0) 0)) := by
  unfold setup
  rw [chacha20_eq key (key.length % 256 :: settings.drop 1) (List.replicate stateSize 0)
    (List.replicate stateSize 0) 0 hk (by rfl), Option.map_some']

theorem parseSchedule_wf (buf : List Nat) (hbuf : 32 ≤ buf.length) :
    (parseSchedule buf).wf := by
  refine ⟨?_, ?_, ?_, ?_⟩
  · show (buf.take chachaKeySize).length = 32
    rw [List.length_take]
    have : chachaKeySize = 32 := rfl
    omega
  · simp [parseSchedule, Hs1Ctx.wf]
  · simp [parseSchedule, Hs1Ctx.wf]
  · simp [parseSchedule, Hs1Ctx.wf]

theorem setup_wf (key : List Nat) (hk : key.length = 32) :
    ∃ ctx, setup key = some ctx ∧ ctx.wf := by
  refine ⟨_, setup_eq key hk, parseSchedule_wf _ ?_⟩
  have hlen := (chachaRun_spec key (key.length % 256 :: settings.drop 1)
    (List.replicate stateSize 0) (List.replicate stateSize 0) 0 (Nat.le_refl _)
    (fun b hbm => by rw [List.eq_of_mem_replicate hbm]; decide)).1
  rw [hlen, List.length_replicate]
  decide

theorem encrypt_eq (ctx : AeadCtx) (p a n c0 : List Nat) (hwf : ctx.wf)
    (hn : n.length = 12) :
    encrypt ctx p a n c0 =
      some (goCopyAt (chachaRun (sealMsgKey ctx (sealTag ctx p a n)) n p c0 1)
        p.length (sealTag ctx p a n)) := by
  unfold encrypt
  dsimp only
  rw [sivGenerate_eq _ _ _ _ _ _ hwf hn, Option.some_bind,
    chacha20_eq _ _ _ _ _
      (length_xorCopyChaChaKey _ _ (by rw [hashFinalize_length]; rfl) hwf.1) hn,
    Option.map_some']
  rfl

theorem sealBytes_eq (key n p a : List Nat) (ctx : AeadCtx) (hs : setup key = some ctx)
    (hwf : ctx.wf) (hn : n.length = 12) :
    sealBytes key n p a =
      goCopyAt (chachaRun (sealMsgKey ctx (sealTag ctx p a n)) n p
        (List.replicate (p.length + TagSize) 0) 1) p.length (sealTag ctx p a n) := by
  unfold sealBytes
  rw [hs, Option.some_bind, encrypt_eq _ _ _ _ _ hwf hn]
  rfl

theorem Seal_ok (key dst n p a : List Nat) (hk : key.length = 32) (hn : n.length = 12) :
    Seal key dst n p a = .ok (dst ++ sealBytes key n p a) := by
  obtain ⟨ctx, hs, hwf⟩ := setup_wf key hk
  have hslice : sliceForAppend dst ((p.length : Int) + (TagSize : Int)) =
      .ok (dst ++ List.replicate (p.length + TagSize) 0,
        List.replicate (p.length + TagSize) 0) := by
    rw [show ((p.length : Int) + (TagSize : Int)) = ((p.length + TagSize : Nat) : Int) by
        omega]
    exact sliceForAppend_grow _ _ (by unfold TagSize; omega)
  unfold Seal
  rw [if_neg (show ¬ n.length ≠ NonceSize from fun h => h (by rw [hn]; rfl)), hs]
  dsimp only
  rw [hslice]
  dsimp only
  rw [encrypt_eq _ _ _ _ _ hwf hn]
  dsimp only
  rw [sealBytes_eq key n p a ctx hs hwf hn]
  have hlen : (dst ++ List.replicate (p.length + TagSize) 0).length -
      (List.replicate (p.length + TagSize) 0).length = dst.length := by
    simp only [List.length_append, List.length_replicate]
    omega
  rw [hlen, List.take_left]

/-- C2: a `Seal` with a 32-byte key and 12-byte nonce appends exactly
`len p + 32` bytes to `dst`: the first `len p` bytes are the plaintext XORed
with the ChaCha20 keystream under the derived final key at counter 1, and the
last 32 bytes are the SIV — the ChaCha20 encryption of 32 zero bytes (the raw
keystream) under the derived SIV key at counter 0. -/
theorem length_chachaKeystreamBytes (key nonce : List Nat) (c len : Nat) :
    (chachaKeystreamBytes key nonce c len).length = len := by
  rw [chachaKeystreamBytes, chachaKsStream, List.length_take, length_chachaKsBlocks]
  omega

theorem chachaKeystreamBytes_lt (key nonce : List Nat) (c len : Nat) :
    ∀ b ∈ chachaKeystreamBytes key nonce c len, b < 256 := by
  intro b hb
  rw [chachaKeystreamBytes, chachaKsStream] at hb
  exact chachaKsBlocks_lt _ _ b (List.mem_of_mem_take hb)

theorem sealTag_eq_ks (ctx : AeadCtx) (p a n : List Nat) :
    sealTag ctx p a n = chachaKeystreamBytes (sealSivKey ctx p a) n 0 32 := by
  show chachaRun (sealSivKey ctx p a) n (List.replicate 32 0) (List.replicate 32 0) 0 = _
  exact chachaRun_zero_input _ _ _ _

theorem length_sealTag (ctx : AeadCtx) (p a n : List Nat) :
    (sealTag ctx p a n).length = 32 := by
  rw [sealTag_eq_ks, length_chachaKeystreamBytes]

theorem sealBytes_parts (key n p a : List Nat) (ctx : AeadCtx)
    (hs : setup key = some ctx) (hwf : ctx.wf) (hn : n.length = 12)
    (hp : ∀ b ∈ p, b < 256) :
    (sealBytes key n p a).length = p.length + TagSize ∧
    (sealBytes key n p a).take p.length =
      List.zipWith Nat.xor p
        (chachaKeystreamBytes (sealMsgKey ctx (sealTag ctx p a n)) n 1 p.length) ∧
    (sealBytes key n p a).drop p.length = sealTag ctx p a n := by
  have hsb := sealBytes_eq key n p a ctx hs hwf hn
  have hrun := chachaRun_spec (sealMsgKey ctx (sealTag ctx p a n)) n p
    (List.replicate (p.length + TagSize) 0) 1
    (by rw [List.length_replicate]; exact Nat.le_add_right _ _) hp
  have hbodylen : (chachaRun (sealMsgKey ctx (sealTag ctx p a n)) n p
      (List.replicate (p.length + TagSize) 0) 1).length = p.length + TagSize := by
    rw [hrun.1, List.length_replicate]
  have htaglen := length_sealTag ctx p a n
  refine ⟨?_, ?_, ?_⟩
  · rw [hsb, length_goCopyAt, hbodylen]
  · rw [hsb, goCopyAt_take_of_le _ _ _ _
      (by rw [hbodylen]; exact Nat.le_add_right _ _) (Nat.le_refl _)]
    exact hrun.2.1
  · rw [hsb, goCopyAt_drop_off _ _ _ (by rw [hbodylen]; exact Nat.le_add_right _ _),
      hbodylen, show p.length + TagSize - p.length = TagSize by omega,
      @List.take_of_length_le Nat TagSize (sealTag ctx p a n) (by rw [htaglen]; decide),
      htaglen, List.drop_eq_nil_of_le (by rw [hbodylen]; unfold TagSize; omega),
      List.append_nil]

theorem seal_output_bytes (key dst n p a : List Nat)
    (hk : key.length = 32) (hn : n.length = 12) (hp : ∀ b ∈ p, b < 256) :
    ∃ ctx, setup key = some ctx ∧
      Seal key dst n p a = GoResult.ok (dst ++ sealBytes key n p a) ∧
      (sealBytes key n p a).length = p.length + TagSize ∧
      (sealBytes key n p a).take p.length =
        List.zipWith Nat.xor p
          (chachaKeystreamBytes (sealMsgKey ctx (sealTag ctx p a n)) n 1 p.length) ∧
      (sealBytes key n p a).drop p.length = sealTag ctx p a n ∧
      sealTag ctx p a n = chachaKeystreamBytes (sealSivKey ctx p a) n 0 32 := by
  obtain ⟨ctx, hs, hwf⟩ := setup_wf key hk
  obtain ⟨h1, h2, h3⟩ := sealBytes_parts key n p a ctx hs hwf hn hp
  exact ⟨ctx, hs, Seal_ok key dst n p a hk hn, h1, h2, h3, sealTag_eq_ks ctx p a n⟩

/-- Witness for `seal_output_bytes`: a concrete key, nonce, plaintext and AD. -/
theorem seal_output_bytes_witness :
    ∃ ctx, setup (List.replicate 32 5) = some ctx ∧
      Seal (List.replicate 32 5) [9] (List.replicate 12 1) [10, 20] [7] =
        GoResult.ok ([9] ++ sealBytes (List.replicate 32 5) (List.replicate 12 1) [10, 20] [7]) ∧
      (sealBytes (List.replicate 32 5) (List.replicate 12 1) [10, 20] [7]).length =
        ([10, 20] : List Nat).length + TagSize ∧
      (sealBytes (List.replicate 32 5) (List.replicate 12 1) [10, 20] [7]).take
          ([10, 20] : List Nat).length =
        List.zipWith Nat.xor [10, 20]
          (chachaKeystreamBytes
            (sealMsgKey ctx (sealTag ctx [10, 20] [7] (List.replicate 12 1)))
            (List.replicate 12 1) 1 ([10, 20] : List Nat).length) ∧
      (sealBytes (List.replicate 32 5) (List.replicate 12 1) [10, 20] [7]).drop
          ([10, 20] : List Nat).length = sealTag ctx [10, 20] [7] (List.replicate 12 1) ∧
      sealTag ctx [10, 20] [7] (List.replicate 12 1) =
        chachaKeystreamBytes (sealSivKey ctx [10, 20] [7]) (List.replicate 12 1) 0 32 :=
  seal_output_bytes (List.replicate 32 5) [9] (List.replicate 12 1) [10, 20] [7]
    (by decide) (by decide) (by decide)

/-- C9: `Seal` is deterministic — a pure function of (key, nonce, plaintext,
AD).  Two calls with identical inputs (here with arbitrary distinct `dst`
buffers) both append the same byte string `sealBytes key n p a`, which depends
on nothing else. -/
theorem seal_deterministic (key dst₁ dst₂ n p a : List Nat)
    (hk : key.length = 32) (hn : n.length = 12) :
    Seal key dst₁ n p a = GoResult.ok (dst₁ ++ sealBytes key n p a) ∧
    Seal key dst₂ n p a = GoResult.ok (dst₂ ++ sealBytes key n p a) :=
  ⟨Seal_ok key dst₁ n p a hk hn, Seal_ok key dst₂ n p a hk hn⟩

/-- Witness for `seal_deterministic` at concrete inputs. -/
theorem seal_deterministic_witness :
    Seal (List.replicate 32 2) [] (List.replicate 12 4) [1, 2, 3] [8] =
      GoResult.ok ([] ++ sealBytes (List.replicate 32 2) (List.replicate 12 4) [1, 2, 3] [8]) ∧
    Seal (List.replicate 32 2) [5, 6] (List.replicate 12 4) [1, 2, 3] [8] =
      GoResult.ok
        ([5, 6] ++ sealBytes (List.replicate 32 2) (List.replicate 12 4) [1, 2, 3] [8]) :=
  seal_deterministic (List.replicate 32 2) [] [5, 6] (List.replicate 12 4) [1, 2, 3] [8]
    (by decide) (by decide)

/-- C3 (refuted — code bug): with a valid key and nonce, `Open` on any
ciphertext shorter than the 32-byte tag does not return an ordinary error: it
panics.  `sliceForAppend(dst, len(ciphertext)-TagSize)` runs before
`decrypt`'s short-ciphertext check ever executes, and with a negative `n` the
slice expressions `in[:total]` (when `total < 0`) or `head[len(in):]` (when
`0 ≤ total < len(in)`) are out of range. -/
theorem open_short_ciphertext_panics (key dst n c ad : List Nat)
    (hk : key.length = 32) (hn : n.length = 12) (hshort : c.length < TagSize) :
    Open key dst n c ad = GoResult.panicked := by
  obtain ⟨ctx, hs, _⟩ := setup_wf key hk
  have h32 : TagSize = 32 := rfl
  have hsl : sliceForAppend dst ((c.length : Int) - (TagSize : Int)) = .panicked := by
    unfold sliceForAppend
    dsimp only
    by_cases hneg : (dst.length : Int) + ((c.length : Int) - (TagSize : Int)) < 0
    · rw [if_pos hneg]
    · rw [if_neg hneg, if_pos (by rw [h32] at hshort ⊢; omega)]
  unfold Open
  rw [if_neg (show ¬ n.length ≠ NonceSize from fun h => h (by rw [hn]; rfl)), hs]
  dsimp only
  rw [hsl]

/-- Witness for `open_short_ciphertext_panics`: `Open` with `nil` dst and an
empty ciphertext panics. -/
theorem open_short_ciphertext_panics_witness :
    Open (List.replicate 32 0) [] (List.replicate 12 0) [] [] = GoResult.panicked :=
  open_short_ciphertext_panics (List.replicate 32 0) [] (List.replicate 12 0) [] []
    (by decide) (by decide) (by decide)

/-- C4: when the ciphertext carries at least the 32-byte tag and the
recomputed SIV does not match it (`decrypt` returns `false` with candidate
plaintext `m`), `Open` returns an ordinary error result (never a panic): the
error flag is set, every byte of the freshly written candidate plaintext is
zeroed in the output buffer, and when any plaintext bytes were written the
returned slice is `nil` — no plaintext reaches the caller. -/
theorem open_auth_failure (key dst n c ad m : List Nat) (ctx : AeadCtx)
    (_hk : key.length = 32) (hn : n.length = 12) (hc : TagSize ≤ c.length)
    (hs : setup key = some ctx)
    (hd : decrypt ctx c ad n (List.replicate (c.length - TagSize) 0) = some (false, m)) :
    Open key dst n c ad =
      GoResult.ok
        ((if 0 < c.length - TagSize then none else some (dst ++ m)), true,
          dst ++ (if 0 < c.length - TagSize then List.replicate m.length 0 else m)) := by
  have hsl : sliceForAppend dst ((c.length : Int) - (TagSize : Int)) =
      .ok (dst ++ List.replicate (c.length - TagSize) 0,
        List.replicate (c.length - TagSize) 0) := by
    unfold sliceForAppend
    dsimp only
    rw [if_neg (by omega), if_neg (by omega),
      show ((dst.length : Int) + ((c.length : Int) - (TagSize : Int))).toNat - dst.length =
        c.length - TagSize by omega]
  unfold Open
  rw [if_neg (show ¬ n.length ≠ NonceSize from fun h => h (by rw [hn]; rfl)), hs]
  dsimp only
  rw [hsl]
  dsimp only
  rw [hd]
  dsimp only
  rw [if_neg (show ¬ (false = true) by decide)]
  simp only [List.length_replicate]
  have hlen : (dst ++ List.replicate (c.length - TagSize) 0).length - (c.length - TagSize) =
      dst.length := by
    simp only [List.length_append, List.length_replicate]
    omega
  rw [hlen, List.take_left]
  by_cases hz : 0 < c.length - TagSize
  · simp only [if_pos hz]
  · simp only [if_neg hz]

set_option maxRecDepth 1000000 in
/-- Witness for `open_auth_failure`: a 33-byte all-zero ciphertext under the
all-zero key fails authentication; the single decrypted plaintext byte (2) is
zeroed in the returned buffer and the returned slice is `nil`. -/
theorem open_auth_failure_witness :
    Open (List.replicate 32 0) [] (List.replicate 12 0) (List.replicate 33 0) [] =
      GoResult.ok
        ((if 0 < (List.replicate 33 0 : List Nat).length - TagSize then none
          else some ([] ++ [2])), true,
          [] ++ (if 0 < (List.replicate 33 0 : List Nat).length - TagSize then
            List.replicate ([2] : List Nat).length 0 else [2])) :=
  open_auth_failure (List.replicate 32 0) [] (List.replicate 12 0) (List.replicate 33 0) [] [2]
    (parseSchedule (chachaRun (List.replicate 32 0)
      ((List.replicate 32 0 : List Nat).length % 256 :: settings.drop 1)
      (List.replicate stateSize 0) (List.replicate stateSize 0) 0))
    (by decide) (by decide) (by decide)
    (setup_eq (List.replicate 32 0) (by decide))
    (by decide)

theorem zipWith_xor_lt (p : List Nat) :
    ∀ (q : List Nat), (∀ b ∈ p, b < 256) → (∀ b ∈ q, b < 256) →
      ∀ b ∈ List.zipWith Nat.xor p q, b < 256 := by
  induction p with
  | nil => intro q _ _ b hb; simp at hb
  | cons x xs ih =>
    intro q hp hq b hb
    cases q with
    | nil => simp at hb
    | cons y ys =>
      have hb' : b = Nat.xor x y ∨ b ∈ List.zipWith Nat.xor xs ys := List.mem_cons.mp hb
      rcases hb' with rfl | hb'
      · have hx : x < 2 ^ 8 := hp x (by simp)
        have hy : y < 2 ^ 8 := hq y (by simp)
        exact Nat.xor_lt_two_pow hx hy
      · exact ih ys (fun t ht => hp t (by simp [ht])) (fun t ht => hq t (by simp [ht])) b hb'

theorem zipWith_xor_cancel :
    ∀ (p ks : List Nat), p.length ≤ ks.length →
      List.zipWith Nat.xor (List.zipWith Nat.xor p ks) ks = p := by
  intro p
  induction p with
  | nil => intro ks _; simp
  | cons x xs ih =>
    intro ks hks
    cases ks with
    | nil => simp at hks
    | cons k kt =>
      show Nat.xor (Nat.xor x k) k :: List.zipWith Nat.xor (List.zipWith Nat.xor xs kt) kt
          = x :: xs
      rw [ih kt (by simpa using hks)]
      congr 1
      exact Nat.xor_cancel_right k x

theorem chachaRun_unxor (k nonce p : List Nat) (c : Nat) (hp : ∀ b ∈ p, b < 256) :
    chachaRun k nonce (List.zipWith Nat.xor p (chachaKeystreamBytes k nonce c p.length))
      (List.replicate p.length 0) c = p := by
  have hkslen := length_chachaKeystreamBytes k nonce c p.length
  have helen : (List.zipWith Nat.xor p (chachaKeystreamBytes k nonce c p.length)).length
      = p.length := by
    rw [List.length_zipWith, hkslen]
    omega
  have heb := zipWith_xor_lt p (chachaKeystreamBytes k nonce c p.length) hp
    (chachaKeystreamBytes_lt k nonce c p.length)
  have hspec := chachaRun_spec k nonce
    (List.zipWith Nat.xor p (chachaKeystreamBytes k nonce c p.length))
    (List.replicate p.length 0) c (by rw [helen, List.length_replicate]) heb
  have h1 := hspec.1
  have h2 := hspec.2.1
  rw [List.length_replicate] at h1
  rw [helen] at h2
  rw [← List.take_of_length_le (Nat.le_of_eq h1), h2,
    zipWith_xor_cancel p _ (by rw [hkslen])]

theorem decrypt_roundtrip (key n p a : List Nat) (ctx : AeadCtx)
    (hs : setup key = some ctx) (hwf : ctx.wf) (hn : n.length = 12)
    (hp : ∀ b ∈ p, b < 256) :
    decrypt ctx (sealBytes key n p a) a n (List.replicate p.length 0) = some (true, p) := by
  obtain ⟨hlen, htake, hdrop⟩ := sealBytes_parts key n p a ctx hs hwf hn hp
  have h32 : TagSize = 32 := rfl
  have hsl : hs1SIVLen = 32 := rfl
  unfold decrypt
  rw [if_neg (by rw [hlen]; omega)]
  dsimp only
  rw [show (sealBytes key n p a).length - hs1SIVLen = p.length by rw [hlen]; omega]
  have hsiv : ((sealBytes key n p a).drop p.length).take hs1SIVLen = sealTag ctx p a n := by
    rw [hdrop]
    exact List.take_of_length_le (by rw [length_sealTag]; omega)
  rw [hsiv]
  have hnonce : goCopyAt (List.replicate NonceSize 0) 0 n = n := by
    rw [goCopyAt_zero_of_le _ _ (by rw [hn, List.length_replicate]; decide), hn,
      show (List.replicate NonceSize 0 : List Nat).drop 12 = [] from rfl, List.append_nil]
  rw [hnonce, List.length_replicate,
    chacha20_eq _ _ _ _ _
      (length_xorCopyChaChaKey _ _ (by rw [hashFinalize_length]; rfl) hwf.1) hn,
    Option.some_bind]
  have hm : chachaRun
      (xorCopyChaChaKey (hashFinalize ctx.hashCtx (sealTag ctx p a n)
        (List.replicate hs1HashRounds 1) (List.replicate 32 0)) ctx.chachaKey) n
      ((sealBytes key n p a).take p.length) (List.replicate p.length 0) 1 = p := by
    rw [htake]
    exact chachaRun_unxor (sealMsgKey ctx (sealTag ctx p a n)) n p 1 hp
  rw [hm, sivGenerate_eq _ _ _ _ _ _ hwf hn, Option.map_some']
  have hcmp : ctCompare (sealTag ctx p a n)
      (chachaRun
        (xorCopyChaChaKey
          (sivGenAccum ctx (sivHashAD ctx (List.replicate hs1HashRounds 1) a) p
            (sivLenBufBytes a.length p.length))
          ctx.chachaKey)
        n (List.replicate hs1SIVLen 0) (List.replicate hs1SIVLen 0) 0) = true := by
    show ctCompare (sealTag ctx p a n) (sealTag ctx p a n) = true
    unfold ctCompare
    exact beq_self_eq_true _
  rw [hcmp]

/-- C1: round trip — for every 32-byte key, 12-byte nonce, plaintext and AD,
sealing with `dst = nil` succeeds, and opening the sealed bytes with the same
key, nonce and AD (again with `dst = nil`) succeeds with no error and returns
exactly the plaintext. -/
theorem seal_open_roundtrip (key n p a : List Nat)
    (hk : key.length = 32) (hn : n.length = 12) (hp : ∀ b ∈ p, b < 256) :
    Seal key [] n p a = GoResult.ok (sealBytes key n p a) ∧
    Open key [] n (sealBytes key n p a) a = GoResult.ok (some p, false, p) := by
  obtain ⟨ctx, hs, hwf⟩ := setup_wf key hk
  have hlen := (sealBytes_parts key n p a ctx hs hwf hn hp).1
  have h32 : TagSize = 32 := rfl
  constructor
  · rw [Seal_ok key [] n p a hk hn, List.nil_append]
  · have hslice : sliceForAppend []
        (((sealBytes key n p a).length : Int) - (TagSize : Int)) =
        .ok ([] ++ List.replicate p.length 0, List.replicate p.length 0) := by
      unfold sliceForAppend
      dsimp only
      rw [if_neg (by rw [hlen]; omega), if_neg (by rw [hlen]; omega)]
      rw [show ((([] : List Nat).length : Int) +
          (((sealBytes key n p a).length : Int) - (TagSize : Int))).toNat -
          ([] : List Nat).length = p.length by rw [hlen]; omega]
    unfold Open
    rw [if_neg (show ¬ n.length ≠ NonceSize from fun h => h (by rw [hn]; rfl)), hs]
    dsimp only
    rw [hslice]
    dsimp only
    rw [decrypt_roundtrip key n p a ctx hs hwf hn hp]
    dsimp only
    rw [if_pos rfl,
      show ([] ++ List.replicate p.length 0 : List Nat).length -
        (List.replicate p.length 0 : List Nat).length = 0 by simp,
      List.take_zero, List.nil_append]

/-- Witness for `seal_open_roundtrip` at a concrete key, nonce, plaintext and
AD. -/
theorem seal_open_roundtrip_witness :
    Seal (List.replicate 32 11) [] (List.replicate 12 13) [1, 2, 3] [4, 5] =
      GoResult.ok (sealBytes (List.replicate 32 11) (List.replicate 12 13) [1, 2, 3] [4, 5]) ∧
    Open (List.replicate 32 11) [] (List.replicate 12 13)
        (sealBytes (List.replicate 32 11) (List.replicate 12 13) [1, 2, 3] [4, 5]) [4, 5] =
      GoResult.ok (some [1, 2, 3], false, [1, 2, 3]) :=
  seal_open_roundtrip (List.replicate 32 11) (List.replicate 12 13) [1, 2, 3] [4, 5]
    (by decide) (by decide) (by decide)

theorem hashStepF_fuel (ctx : Hs1Ctx) :
    ∀ f1 f2 msg accum, msg.length ≤ f1 → msg.length ≤ f2 →
      hashStepF ctx f1 msg accum = hashStepF ctx f2 msg accum := by
  intro f1
  induction f1 with
  | zero =>
    intro f2 msg accum h1 _
    have h0 : msg.length = 0 := Nat.le_zero.mp h1
    cases f2 with
    | zero => rfl
    | succ k =>
      show accum = hashStepF ctx (k + 1) msg accum
      rw [hashStepF, if_pos h0]
  | succ j ih =>
    intro f2 msg accum h1 h2
    by_cases h0 : msg.length = 0
    · cases f2 with
      | zero =>
        show hashStepF ctx (j + 1) msg accum = accum
        rw [hashStepF, if_pos h0]
      | succ k => rw [hashStepF, if_pos h0, hashStepF, if_pos h0]
    · cases f2 with
      | zero => omega
      | succ k =>
        rw [hashStepF, if_neg h0, hashStepF, if_neg h0]
        exact ih k (msg.drop 64) _ (by rw [List.length_drop]; omega)
          (by rw [List.length_drop]; omega)

theorem hashStep_unfold (ctx : Hs1Ctx) (msg accum : List Nat) :
    hashStep ctx msg accum =
      if msg.length = 0 then accum
      else
        hashStep ctx (msg.drop 64)
          (polyAccAll ctx (nhBlockAux ctx [0, 4, 8, 12] msg (List.replicate hs1HashRounds 0))
            accum) := by
  by_cases h0 : msg.length = 0
  · rw [if_pos h0]
    show hashStepF ctx msg.length msg accum = accum
    rw [h0]
    rfl
  · rw [if_neg h0]
    show hashStepF ctx msg.length msg accum =
      hashStepF ctx (msg.drop 64).length (msg.drop 64) _
    obtain ⟨k, hk⟩ : ∃ k, msg.length = k + 1 := ⟨msg.length - 1, by omega⟩
    rw [hk, hashStepF, if_neg h0]
    exact hashStepF_fuel ctx k _ _ _ (by rw [List.length_drop]; omega) (Nat.le_refl _)

theorem leU32At_append (x y : List Nat) (off : Nat) (h : off + 4 ≤ x.length) :
    leU32At (x ++ y) off = leU32At x off := by
  unfold leU32At
  rw [List.getD_append _ _ _ _ (by omega), List.getD_append _ _ _ _ (by omega),
    List.getD_append _ _ _ _ (by omega), List.getD_append _ _ _ _ (by omega)]

theorem nhChunk_append (ctx : Hs1Ctx) (i : Nat) (x y nh : List Nat) (h : 16 ≤ x.length) :
    nhChunk ctx i (x ++ y) nh = nhChunk ctx i x nh := by
  unfold nhChunk
  rw [leU32At_append _ _ _ (by omega), leU32At_append _ _ _ (by omega),
    leU32At_append _ _ _ (by omega), leU32At_append _ _ _ (by omega)]

theorem nhBlockAux_append (ctx : Hs1Ctx) :
    ∀ (ivs x y nh : List Nat), 16 * ivs.length ≤ x.length →
      nhBlockAux ctx ivs (x ++ y) nh = nhBlockAux ctx ivs x nh := by
  intro ivs
  induction ivs with
  | nil => intro x y nh _; rfl
  | cons i is ih =>
    intro x y nh h
    have h16 : 16 ≤ x.length := by simp only [List.length_cons] at h; omega
    rw [nhBlockAux, nhBlockAux, nhChunk_append _ _ _ _ _ h16]
    have hdrop : (x ++ y).drop 16 = x.drop 16 ++ y := by
      rw [List.drop_append_eq_append_drop, show 16 - x.length = 0 by omega, List.drop_zero]
    rw [hdrop]
    exact ih _ _ _ (by simp only [List.length_drop, List.length_cons] at *; omega)

theorem hashStep_append (ctx : Hs1Ctx) :
    ∀ (k : Nat) (x y accum : List Nat), x.length = 64 * k →
      hashStep ctx (x ++ y) accum = hashStep ctx y (hashStep ctx x accum) := by
  intro k
  induction k with
  | zero =>
    intro x y accum hx
    obtain rfl : x = [] := List.length_eq_zero.mp (by omega)
    rw [List.nil_append, show hashStep ctx [] accum = accum from rfl]
  | succ j ih =>
    intro x y accum hx
    have hx64 : 64 ≤ x.length := by omega
    rw [hashStep_unfold ctx (x ++ y), if_neg (by rw [List.length_append]; omega),
      hashStep_unfold ctx x, if_neg (by omega),
      nhBlockAux_append _ _ _ _ _ (by simp only [List.length_cons, List.length_nil]; omega)]
    have hdrop : (x ++ y).drop 64 = x.drop 64 ++ y := by
      rw [List.drop_append_eq_append_drop, show 64 - x.length = 0 by omega, List.drop_zero]
    rw [hdrop]
    exact ih (x.drop 64) y _ (by rw [List.length_drop]; omega)

theorem sivHashAD_stream (ctx : AeadCtx) (accum a : List Nat) :
    sivHashAD ctx accum a = hashStep ctx.hashCtx (sivHashADStream a) accum := by
  unfold sivHashAD sivHashADStream
  dsimp only
  by_cases h : 64 * (a.length / 64) < a.length
  · rw [if_pos h, if_pos h,
      hashStep_append ctx.hashCtx (a.length / 64) _ _ _ (by rw [List.length_take]; omega)]
  · rw [if_neg h, if_neg h, List.append_nil]

theorem sivGenAccum_stream (ctx : AeadCtx) (accum m lenBuf : List Nat) :
    sivGenAccum ctx accum m lenBuf =
      hashFinalize ctx.hashCtx (sivGenFinChunk m lenBuf)
        (hashStep ctx.hashCtx (sivGenStepStream m) accum) (List.replicate 32 0) := by
  unfold sivGenAccum sivGenStepStream sivGenFinChunk
  dsimp only
  by_cases h : tailPadLen m.length = hs1NHLen
  · rw [if_pos h, if_pos h, if_pos h,
      hashStep_append ctx.hashCtx (m.length / 64) _ _ _ (by rw [List.length_take]; omega)]
  · rw [if_neg h, if_neg h, if_neg h, List.append_nil]

theorem sivHashADStream_blocks (a : List Nat) :
    ∃ k, (sivHashADStream a).length = 64 * k := by
  unfold sivHashADStream
  by_cases h : 64 * (a.length / 64) < a.length
  · rw [if_pos h]
    refine ⟨a.length / 64 + 1, ?_⟩
    rw [List.length_append, List.length_take, length_pad64]
    omega
  · rw [if_neg h]
    refine ⟨a.length / 64, ?_⟩
    rw [List.length_append, List.length_take, List.length_nil]
    omega

theorem sivGenTailBuf_ends (tail lenBuf : List Nat) (hlb : lenBuf.length = 16)
    (htl : tail.length ≤ 63) (hk : 16 * ((tail.length + 15) / 16) ≤ 48) :
    (sivGenTailBuf tail lenBuf).drop ((sivGenTailBuf tail lenBuf).length - 16) = lenBuf := by
  have hlen := length_sivGenTailBuf tail lenBuf htl (by omega)
  rw [hlen, Nat.add_sub_cancel]
  unfold sivGenTailBuf
  rw [List.drop_take, show 16 * ((tail.length + 15) / 16) + 16 -
      16 * ((tail.length + 15) / 16) = 16 by omega,
    goCopyAt_drop_off _ _ _ (by rw [length_pad64]; omega), length_pad64, hlb,
    List.take_append_eq_append_take, List.take_take, min_eq_left (by omega),
    List.length_take, hlb,
    show 16 - min (64 - 16 * ((tail.length + 15) / 16)) 16 = 0 by omega,
    List.take_zero, List.append_nil]
  exact List.take_of_length_le (by omega)

theorem sivGenFinChunk_ends (m lenBuf : List Nat) (hlb : lenBuf.length = 16) :
    (sivGenFinChunk m lenBuf).drop ((sivGenFinChunk m lenBuf).length - 16) = lenBuf := by
  unfold sivGenFinChunk
  by_cases h : tailPadLen m.length = hs1NHLen
  · rw [if_pos h, hlb, Nat.sub_self, List.drop_zero]
  · rw [if_neg h]
    have htl : (m.drop (64 * (m.length / 64))).length ≤ 63 := by
      rw [List.length_drop]
      omega
    have hk : 16 * (((m.drop (64 * (m.length / 64))).length + 15) / 16) ≤ 48 := by
      rw [List.length_drop]
      unfold tailPadLen hs1NHLen at h
      omega
    exact sivGenTailBuf_ends _ _ hlb htl hk

/-- C5 (amended): in every Seal, the length block is absorbed LAST, not
first — the SIV accumulator Seal computes (`sivGenerate` after `sivHashAD`)
equals `hashFinalize` of the final chunk over `hashStep` of the AD stream
followed by the message stream, and that final chunk ends with (and only
then contains) the 16-byte length block. -/
theorem seal_lengthBlock_absorbed_last (ctx : AeadCtx) (a m : List Nat) :
    sivGenAccum ctx (sivHashAD ctx (List.replicate hs1HashRounds 1) a) m
        (sivLenBufBytes a.length m.length) =
      hashFinalize ctx.hashCtx (sivGenFinChunk m (sivLenBufBytes a.length m.length))
        (hashStep ctx.hashCtx (sivHashADStream a ++ sivGenStepStream m)
          (List.replicate hs1HashRounds 1)) (List.replicate 32 0) ∧
    (sivGenFinChunk m (sivLenBufBytes a.length m.length)).drop
        ((sivGenFinChunk m (sivLenBufBytes a.length m.length)).length - 16) =
      sivLenBufBytes a.length m.length := by
  constructor
  · rw [sivGenAccum_stream, sivHashAD_stream]
    obtain ⟨k, hk⟩ := sivHashADStream_blocks a
    rw [hashStep_append ctx.hashCtx k _ _ _ hk]
  · exact sivGenFinChunk_ends m _ (length_sivLenBufBytes ..)

/-- C5 counterexample: for the one-byte AD `[7]` and empty message, the byte
stream Seal absorbs is the zero-padded AD block followed by the length
block — the length block comes last; the stream differs from the
claimed-order stream and its first 16 bytes are not the length block. -/
theorem lengthBlock_not_first :
    sealHashStream [7] [] = pad64 [7] ++ sivLenBufBytes 1 0 ∧
    sealHashStream [7] [] ≠ specClaimedStream [7] [] ∧
    (sealHashStream [7] []).take 16 ≠
      sivLenBufBytes ([7] : List Nat).length ([] : List Nat).length := by
  refine ⟨?_, ?_, ?_⟩ <;> decide

end HS1SIV
